import Mathlib

/-!
# Path segments (`go/lib/ctrl/seg/seg.go`)

A shallow embedding of the `PathSegment` aggregate: its raw/parsed entry
chains, the append-and-sign operation, signature-scope packing, the two-mode
validation, the content hashes, the expiry aggregation and the rebuilding from
raw data, followed by theorems about them.

Conventions of the embedding.

* A Go byte slice is a `List Nat`; a nil-able pointer or a nil-able cached
  slice is an `Option`.
* A Go `error` result is an `Option Error` (`none` is `nil`); a Go
  `(value, error)` pair is an `Except Error value`, except for `Signer.Sign`,
  whose pair is kept as a pair because `AddASEntry` stores the returned
  pointer before it looks at the error.
* A method with a pointer receiver that mutates the segment returns the new
  segment next to its Go result.
* A run-time panic (index or slice bound out of range) is the outer `none`
  of an `Option`.
* Code that lives outside `seg.go` (codec, hash, hop-field and info-field
  parsers, address conversion, the per-entry check `ASEntry.Validate`) is
  collected in the record `Ext` and passed as a parameter. What section 4.1
  of the specification says about the per-entry check is the definition
  `ASEntry.Validate`; theorems that rely on it assume
  `x.validateASEntry = ASEntry.Validate`.
-/

namespace Seg

/-- Go `common.RawBytes`: a byte sequence. -/
abbrev RawBytes := List Nat

/-- Go `addr.IA`: the ISD-AS pair; the zero value is `⟨0, 0⟩`. -/
structure IA where
  I : Nat
  A : Nat
deriving DecidableEq, Repr

/-- The zero value `addr.IA{}`. -/
def IA.zero : IA := ⟨0, 0⟩

/-- Go `proto.SignS`, the signature metadata stored next to a blob.
Modelled from the spec: the type is declared outside `seg.go`; section 3
describes it as opaque signature bytes plus signer metadata. -/
structure SignS where
  Signature : RawBytes
  Meta : RawBytes
deriving DecidableEq, Repr

/-- Go `proto.SignedBlobS`: a packed AS entry and its signature metadata
(a nil `Sign` pointer is `none`). -/
structure SignedBlobS where
  Blob : RawBytes
  Sign : Option SignS
deriving DecidableEq, Repr

/-- Go `spath.HopField`, restricted to the fields `seg.go` reads. -/
structure HopField where
  ConsIngress : Nat
  ConsEgress : Nat
  ExpTime : Nat
deriving DecidableEq, Repr

/-- Go `spath.InfoField`, restricted to what `seg.go` reads and writes. -/
structure InfoField where
  TsInt : Nat
  Hops : Nat
deriving DecidableEq, Repr

/-- Go `HopEntry`: the raw hop field blob of one hop. -/
structure HopEntry where
  RawHopField : RawBytes
deriving DecidableEq, Repr

/-- Go `ASEntry`: the fields `seg.go` reads (`RawIA`, `HopEntries`).
Modelled from the spec: `IngressIA` and `EgressIA` are the entry's recorded
ingress-neighbour and egress-neighbour IA of section 4.1; the declaration of
the type is outside `seg.go`. -/
structure ASEntry where
  RawIA : Nat
  HopEntries : List HopEntry
  IngressIA : IA
  EgressIA : IA
deriving DecidableEq, Repr

/-- Go `PathSegmentSignedData`: the packed info field. -/
structure PathSegmentSignedData where
  RawInfo : RawBytes
deriving DecidableEq, Repr

/-- The errors `seg.go` can return. `foreign` stands for an error produced
outside `seg.go` (codec, signer, verifier, parser); the other constructors are
the `common.NewBasicError` calls of `seg.go` with their cause and context. -/
inductive Error where
  | foreign (code : Nat)
  | ingressMismatch
  | egressMismatch
  | noASEntries
  | mismatchedEntries (parsed : Nat) (raw : Nat)
  | asEntryInvalid (cause : Error) (ASEntryIdx : Nat)
  | invalidHopField (cause : Error) (asEntry : ASEntry)
  | invalidIndex (min : Int) (max : Int) (actual : Int)
deriving DecidableEq, Repr

/-- Go `ValidationMethod` (a `bool`): `ValidateSegment = false`,
`ValidateBeacon = true`. -/
abbrev ValidationMethod := Bool

/-- Go constant `ValidateSegment`. -/
def ValidateSegment : ValidationMethod := false

/-- Go constant `ValidateBeacon`. -/
def ValidateBeacon : ValidationMethod := true

/-- Go `PathSegment`. -/
structure PathSegment where
  RawSData : RawBytes
  SData : Option PathSegmentSignedData
  RawASEntries : List SignedBlobS
  ASEntries : List ASEntry
  id : Option RawBytes
  fullId : Option RawBytes
deriving DecidableEq, Repr

/-- Go interface `Signer`: `Sign` returns a pointer and an error. -/
abbrev Signer := RawBytes → Option SignS × Option Error

/-- Go interface `Verifier` (the context argument is part of the closure). -/
abbrev Verifier := RawBytes → Option SignS → Option Error

/-- The collaborators of `seg.go` that are defined elsewhere. -/
structure Ext where
  /-- Go `ASEntry.Pack` (`proto.PackRoot`). -/
  packASEntry : ASEntry → Except Error RawBytes
  /-- Go `proto.SignedBlobS.Pack`. -/
  packSignedBlob : SignedBlobS → RawBytes
  /-- Go `newPathSegmentSignedData`. -/
  newSData : InfoField → PathSegmentSignedData
  /-- Go `proto.PackRoot` on the signed data. -/
  packSData : PathSegmentSignedData → Except Error RawBytes
  /-- Go `PathSegmentSignedData.Validate`, called on the `SData` pointer. -/
  validateSData : Option PathSegmentSignedData → Option Error
  /-- Go `HopEntry.HopField`. -/
  hopField : HopEntry → Except Error HopField
  /-- Go `ASEntry.Validate(prevIA, nextIA, ignoreNext)`. -/
  validateASEntry : ASEntry → IA → IA → Bool → Option Error
  /-- Go `addr.IAInt.IA`. -/
  toIA : Nat → IA
  /-- Go `binary.Write(h, common.Order, v)` for an `addr.IAInt`. -/
  orderBytesIA : Nat → RawBytes
  /-- Go `binary.Write(h, common.Order, v)` for an interface identifier. -/
  orderBytesIFID : Nat → RawBytes
  /-- Go `sha256.New()` followed by `h.Sum(nil)`: the digest of the bytes written. -/
  sha256 : RawBytes → RawBytes
  /-- Go `NewPathSegmentSignedDataFromRaw`. -/
  parseSData : RawBytes → Except Error PathSegmentSignedData
  /-- Go `NewASEntryFromRaw`. -/
  parseASEntry : RawBytes → Except Error ASEntry
  /-- Go `proto.PackRoot` on a segment: of the fields of `PathSegment` only
  `RawSData` and `RawASEntries` are serialised (the others are tagged
  `capnp:"-"` or unexported). -/
  packSegment : RawBytes → List SignedBlobS → Except Error RawBytes
  /-- Go `proto.ParseFromRaw` into an empty segment: it fills `RawSData` and
  `RawASEntries`. -/
  parseSegment : RawBytes → Except Error (RawBytes × List SignedBlobS)
  /-- Go `PathSegmentSignedData.InfoF`, called on the `SData` pointer. -/
  infoF : Option PathSegmentSignedData → Except Error InfoField
  /-- Go `InfoField.Timestamp`, as nanoseconds since the epoch. -/
  timestamp : InfoField → Int
  /-- Go `ExpTimeType.ToDuration`, in nanoseconds. -/
  toDuration : Nat → Int
  /-- Go constant `spath.MaxTTL`. -/
  MaxTTL : Int

/-- Go `ASEntry.IA`. -/
def ASEntry.IA (x : Ext) (ase : ASEntry) : IA := x.toIA ase.RawIA

/-- Modelled from the spec: `ASEntry.Validate(prevIA, nextIA, ignoreNext)`,
which is outside `seg.go`. Section 4.1: it checks that the entry's recorded
ingress-neighbour IA equals `prevIA` and, unless `ignoreNext`, that its
recorded egress-neighbour IA equals `nextIA`. The code of `seg.go` is embedded
over `Ext.validateASEntry`; this definition is what section 4.1 says that
collaborator does. -/
def ASEntry.Validate (ase : ASEntry) (prevIA nextIA : Seg.IA) (ignoreNext : Bool) :
    Option Error :=
  if ase.IngressIA ≠ prevIA then some Error.ingressMismatch
  else if ignoreNext then none
  else if ase.EgressIA ≠ nextIA then some Error.egressMismatch
  else none

/-- Go `NewSeg`. -/
def NewSeg (x : Ext) (infoF : InfoField) : Except Error PathSegment :=
  let pss := x.newSData infoF
  match x.packSData pss with
  | .error err => .error err
  | .ok rawPss =>
    .ok { RawSData := rawPss, SData := some pss, RawASEntries := [], ASEntries := [],
          id := none, fullId := none }

/-- Go `MaxAEIdx`: `len(ps.RawASEntries) - 1` as a Go `int`. -/
def MaxAEIdx (ps : PathSegment) : Int := (ps.RawASEntries.length : Int) - 1

/-- Go `validateIdx`. -/
def validateIdx (ps : PathSegment) (idx : Int) : Option Error :=
  if idx < 0 ∨ idx > MaxAEIdx ps then some (Error.invalidIndex 0 (MaxAEIdx ps) idx)
  else none

/-- Go `sigPack`: `data` starts as a copy of `RawSData`; the loop
`for i := 0; i < idx; i++` appends `RawASEntries[i].Pack()`; then
`RawASEntries[idx].Blob` is appended. An index out of range is `none`. -/
def sigPack (x : Ext) (ps : PathSegment) (idx : Int) : Option RawBytes := do
  let data ← (List.range idx.toNat).foldlM
    (fun (data : RawBytes) (i : Nat) => do
      let sb ← ps.RawASEntries[i]?
      pure (data ++ x.packSignedBlob sb))
    ps.RawSData
  if idx < 0 then none
  else
    let sb ← ps.RawASEntries[idx.toNat]?
    pure (data ++ sb.Blob)

/-- Go `popLastEntry`: both slices lose their last element; slicing an empty
slice to `[:len-1]` panics. -/
def popLastEntry (ps : PathSegment) : Option PathSegment :=
  if ps.RawASEntries.length = 0 then none
  else
    let ps1 := { ps with RawASEntries := ps.RawASEntries.dropLast }
    if ps1.ASEntries.length = 0 then none
    else some { ps1 with ASEntries := ps1.ASEntries.dropLast }

/-- Go `invalidateIds`. -/
def invalidateIds (ps : PathSegment) : PathSegment :=
  { ps with id := none, fullId := none }

/-- The assignment `ps.RawASEntries[idx].Sign = sign`; an index out of range
panics. -/
def setSign (ps : PathSegment) (idx : Int) (sign : Option SignS) : Option PathSegment :=
  if idx < 0 then none
  else
    match ps.RawASEntries[idx.toNat]? with
    | none => none
    | some sb =>
      some { ps with RawASEntries := ps.RawASEntries.set idx.toNat { sb with Sign := sign } }

/-- What one call of `AddASEntry` leaves behind: the segment, the returned
error, and the call made to the signer (its argument and the metadata it
returned), if the signer was reached. -/
structure AddResult where
  ps : PathSegment
  err : Option Error
  signCall : Option (RawBytes × Option SignS)
deriving DecidableEq

/-- Go `AddASEntry`, with the call to the signer recorded. -/
def AddASEntryTrace (x : Ext) (ps : PathSegment) (ase : ASEntry) (signer : Signer) :
    Option AddResult :=
  match x.packASEntry ase with
  | .error err => some ⟨ps, some err, none⟩
  | .ok rawASE => do
    let ps1 : PathSegment :=
      { ps with RawASEntries := ps.RawASEntries ++ [{ Blob := rawASE, Sign := none }] }
    let ps2 : PathSegment := { ps1 with ASEntries := ps1.ASEntries ++ [ase] }
    let data ← sigPack x ps2 (MaxAEIdx ps2)
    let (sign, err) := signer data
    let ps3 ← setSign ps2 (MaxAEIdx ps2) sign
    match err with
    | some e =>
      let ps4 ← popLastEntry ps3
      pure ⟨ps4, some e, some (data, sign)⟩
    | none => pure ⟨invalidateIds ps3, none, some (data, sign)⟩

/-- Go `AddASEntry`: the segment after the call and the returned error. -/
def AddASEntry (x : Ext) (ps : PathSegment) (ase : ASEntry) (signer : Signer) :
    Option (PathSegment × Option Error) :=
  (AddASEntryTrace x ps ase signer).map fun r => (r.ps, r.err)

/-- Go `VerifyASEntry`: the index check, then the verifier on
`sigPack(idx)` and the stored signature metadata. -/
def VerifyASEntry (x : Ext) (ps : PathSegment) (verifier : Verifier) (idx : Int) :
    Option (Option Error) :=
  match validateIdx ps idx with
  | some err => some (some err)
  | none => do
    let data ← sigPack x ps idx
    if idx < 0 then none
    else
      let sb ← ps.RawASEntries[idx.toNat]?
      pure (verifier data sb.Sign)

/-- Inner loop of Go `WalkHopEntries`: the hop entries of one AS entry. -/
def walkHops (x : Ext) (asEntry : ASEntry) : List HopEntry → Option Error
  | [] => none
  | hopEntry :: rest =>
    match x.hopField hopEntry with
    | .error err => some (Error.invalidHopField err asEntry)
    | .ok _ => walkHops x asEntry rest

/-- Outer loop of Go `WalkHopEntries`. -/
def walkEntries (x : Ext) : List ASEntry → Option Error
  | [] => none
  | asEntry :: rest =>
    match walkHops x asEntry asEntry.HopEntries with
    | some err => some err
    | none => walkEntries x rest

/-- Go `WalkHopEntries`. -/
def WalkHopEntries (x : Ext) (ps : PathSegment) : Option Error :=
  walkEntries x ps.ASEntries

/-- The flag `ignoreNext` computed in the loop of Go `Validate`. -/
def ignoreNextAt (ps : PathSegment) (validationMethod : ValidationMethod) (i : Nat) : Bool :=
  decide ((i : Int) = (ps.ASEntries.length : Int) - 1) && (validationMethod == ValidateBeacon)

/-- Body of the loop `for i := range ps.ASEntries` of Go `Validate`; an index
out of range is `none`. -/
def validateBody (x : Ext) (ps : PathSegment) (validationMethod : ValidationMethod)
    (i : Nat) : Option (Option Error) := do
  let prevIA ← if i > 0 then (ps.ASEntries[i - 1]?).map (ASEntry.IA x) else some IA.zero
  let nextIA ←
    if (i : Int) < (ps.ASEntries.length : Int) - 1 then (ps.ASEntries[i + 1]?).map (ASEntry.IA x)
    else some IA.zero
  let ignoreNext := ignoreNextAt ps validationMethod i
  let ase ← ps.ASEntries[i]?
  pure ((x.validateASEntry ase prevIA nextIA ignoreNext).map fun err =>
    Error.asEntryInvalid err i)

/-- The loop `for i := range ps.ASEntries` of Go `Validate`, over the indices
still to visit. -/
def validateLoop (x : Ext) (ps : PathSegment) (validationMethod : ValidationMethod) :
    List Nat → Option (Option Error)
  | [] => some none
  | i :: rest =>
    match validateBody x ps validationMethod i with
    | none => none
    | some (some err) => some (some err)
    | some none => validateLoop x ps validationMethod rest

/-- Go `Validate`. -/
def Validate (x : Ext) (ps : PathSegment) (validationMethod : ValidationMethod) :
    Option (Option Error) :=
  match x.validateSData ps.SData with
  | some err => some (some err)
  | none =>
    if ps.RawASEntries.length = 0 then some (some Error.noASEntries)
    else if ps.ASEntries.length ≠ ps.RawASEntries.length then
      some (some (Error.mismatchedEntries ps.ASEntries.length ps.RawASEntries.length))
    else
      match validateLoop x ps validationMethod (List.range ps.ASEntries.length) with
      | none => none
      | some (some err) => some (some err)
      | some none => some (WalkHopEntries x ps)

/-- Go `FirstIA`; `none` is the index panic on an empty chain. -/
def FirstIA (x : Ext) (ps : PathSegment) : Option IA :=
  (ps.ASEntries[0]?).map (ASEntry.IA x)

/-- Go `LastIA`; `none` is the index panic on an empty chain. -/
def LastIA (x : Ext) (ps : PathSegment) : Option IA :=
  if (ps.ASEntries.length : Int) - 1 < 0 then none
  else (ps.ASEntries[((ps.ASEntries.length : Int) - 1).toNat]?).map (ASEntry.IA x)

/-- Inner loop of Go `calculateHash`: `h` is what has been written to the
hash so far. -/
def hashHops (x : Ext) (hopOnly : Bool) (h : RawBytes) : List HopEntry → Except Error RawBytes
  | [] => .ok h
  | hopE :: rest =>
    match x.hopField hopE with
    | .error err => .error err
    | .ok hopf =>
      let h1 := h ++ x.orderBytesIFID hopf.ConsIngress
      let h2 := h1 ++ x.orderBytesIFID hopf.ConsEgress
      if hopOnly then .ok h2 else hashHops x hopOnly h2 rest

/-- Outer loop of Go `calculateHash`. -/
def hashEntries (x : Ext) (hopOnly : Bool) (h : RawBytes) : List ASEntry → Except Error RawBytes
  | [] => .ok h
  | ase :: rest =>
    match hashHops x hopOnly (h ++ x.orderBytesIA ase.RawIA) ase.HopEntries with
    | .error err => .error err
    | .ok h1 => hashEntries x hopOnly h1 rest

/-- Go `calculateHash`. -/
def calculateHash (x : Ext) (ps : PathSegment) (hopOnly : Bool) : Except Error RawBytes :=
  match hashEntries x hopOnly [] ps.ASEntries with
  | .error err => .error err
  | .ok h => .ok (x.sha256 h)

/-- Go `ID`: the result and the segment with its cache filled. -/
def ID (x : Ext) (ps : PathSegment) : Except Error RawBytes × PathSegment :=
  match ps.id with
  | some id => (.ok id, ps)
  | none =>
    match calculateHash x ps true with
    | .error err => (.error err, ps)
    | .ok id => (.ok id, { ps with id := some id })

/-- Go `FullId`: the result and the segment with its cache filled. -/
def FullId (x : Ext) (ps : PathSegment) : Except Error RawBytes × PathSegment :=
  match ps.fullId with
  | some fullId => (.ok fullId, ps)
  | none =>
    match calculateHash x ps false with
    | .error err => (.error err, ps)
    | .ok fullId => (.ok fullId, { ps with fullId := some fullId })

/-- A segment grown by successful `AddASEntry` calls, one per step; `none`
as soon as a call fails. -/
def growSeg (x : Ext) (ps : PathSegment) : List (ASEntry × Signer) → Option PathSegment
  | [] => some ps
  | step :: rest =>
    match AddASEntry x ps step.1 step.2 with
    | some (ps1, none) => growSeg x ps1 rest
    | _ => none

/-- Go `time.Second` as a `time.Duration`: nanoseconds. -/
def Second : Int := 1000000000

/-- Go `PathSegment.Pack`. -/
def PathSegment.Pack (x : Ext) (ps : PathSegment) : Except Error RawBytes :=
  x.packSegment ps.RawSData ps.RawASEntries

/-- The loop of Go `ParseRaw`: every raw blob is parsed in order, and the first
parse error ends the loop. -/
def parseEntries (x : Ext) : List SignedBlobS → Except Error (List ASEntry)
  | [] => .ok []
  | rawASEntry :: rest =>
    match x.parseASEntry rawASEntry.Blob with
    | .error err => .error err
    | .ok ase =>
      match parseEntries x rest with
      | .error err => .error err
      | .ok ases => .ok (ase :: ases)

/-- Go `ParseRaw`: the segment after the call and the returned error. After a
parse error the Go segment holds whatever pointers the failed parser returned
(a partly filled `ASEntries`), which `PathSegment` does not represent: the
first component is then `none`. The outer `none` is a panic of `Validate`. -/
def ParseRaw (x : Ext) (ps : PathSegment) (validationMethod : ValidationMethod) :
    Option (Option PathSegment × Option Error) :=
  match x.parseSData ps.RawSData with
  | .error err => some (none, some err)
  | .ok sd =>
    let ps1 : PathSegment := { ps with SData := some sd }
    match parseEntries x ps1.RawASEntries with
    | .error err => some (none, some err)
    | .ok ases =>
      let ps2 : PathSegment := { ps1 with ASEntries := ases }
      (Validate x ps2 validationMethod).map fun err => (some ps2, err)

/-- Go `newSegFromRaw`: `ParseFromRaw` into an empty segment, then
`ParseRaw`. -/
def newSegFromRaw (x : Ext) (b : RawBytes) (validationMethod : ValidationMethod) :
    Option (Option PathSegment × Option Error) :=
  match x.parseSegment b with
  | .error err => some (none, some err)
  | .ok fields =>
    let ps : PathSegment :=
      { RawSData := fields.1, SData := none, RawASEntries := fields.2, ASEntries := [],
        id := none, fullId := none }
    ParseRaw x ps validationMethod

/-- Go `NewSegFromRaw`. -/
def NewSegFromRaw (x : Ext) (b : RawBytes) : Option (Option PathSegment × Option Error) :=
  newSegFromRaw x b ValidateSegment

/-- Go `NewBeaconFromRaw`. -/
def NewBeaconFromRaw (x : Ext) (b : RawBytes) : Option (Option PathSegment × Option Error) :=
  newSegFromRaw x b ValidateBeacon

/-- Go `InfoF`. -/
def InfoF (x : Ext) (ps : PathSegment) : Except Error InfoField :=
  x.infoF ps.SData

/-- Inner loop of Go `expiry`: the hop entries of one AS entry; `none` is the
panic on an unparsable hop field. -/
def expiryHops (x : Ext) (compare : Int → Int → Bool) (ttl : Int) : List HopEntry → Option Int
  | [] => some ttl
  | he :: rest =>
    match x.hopField he with
    | .error _ => none
    | .ok hf =>
      let hfTtl := x.toDuration hf.ExpTime
      expiryHops x compare (if compare hfTtl ttl then hfTtl else ttl) rest

/-- Outer loop of Go `expiry`. -/
def expiryEntries (x : Ext) (compare : Int → Int → Bool) (ttl : Int) :
    List ASEntry → Option Int
  | [] => some ttl
  | asEntry :: rest =>
    match expiryHops x compare ttl asEntry.HopEntries with
    | none => none
    | some ttl1 => expiryEntries x compare ttl1 rest

/-- Go `expiry`: a `time.Time` is its number of nanoseconds since the epoch,
`Add` is addition, and durations and times are unbounded integers; `none` is a
panic (info field or hop field unparsable). -/
def expiry (x : Ext) (ps : PathSegment) (initTtl : Int) (compare : Int → Int → Bool) :
    Option Int :=
  match InfoF x ps with
  | .error _ => none
  | .ok info =>
    match expiryEntries x compare initTtl ps.ASEntries with
    | none => none
    | some ttl => some (x.timestamp info + ttl)

/-- Go `MaxExpiry`. -/
def MaxExpiry (x : Ext) (ps : PathSegment) : Option Int :=
  expiry x ps 0 fun hfTtl ttl => decide (hfTtl > ttl)

/-- Go `MinExpiry`. -/
def MinExpiry (x : Ext) (ps : PathSegment) : Option Int :=
  expiry x ps (x.MaxTTL * Second) fun hfTtl ttl => decide (hfTtl < ttl)

/-- Inner loop of Go `ContainsInterface`: `some true` is the early
`return true`, `some false` lets the outer loop go on, `none` is the panic on
an unparsable hop field. -/
def containsHops (x : Ext) (asEntry : ASEntry) (ia : IA) (ifid : Nat) :
    List HopEntry → Option Bool
  | [] => some false
  | entry :: rest =>
    match x.hopField entry with
    | .error _ => none
    | .ok hf =>
      if ASEntry.IA x asEntry = ia ∧ (hf.ConsEgress = ifid ∨ hf.ConsIngress = ifid) then
        some true
      else containsHops x asEntry ia ifid rest

/-- Outer loop of Go `ContainsInterface`. -/
def containsEntries (x : Ext) (ia : IA) (ifid : Nat) : List ASEntry → Option Bool
  | [] => some false
  | asEntry :: rest =>
    match containsHops x asEntry ia ifid asEntry.HopEntries with
    | none => none
    | some true => some true
    | some false => containsEntries x ia ifid rest

/-- Go `ContainsInterface`. -/
def ContainsInterface (x : Ext) (ps : PathSegment) (ia : IA) (ifid : Nat) : Option Bool :=
  containsEntries x ia ifid ps.ASEntries

/-- Decoder of the sample codec: one length-prefixed field and what follows
it. -/
def takeField : List Nat → Option (List Nat × List Nat)
  | [] => none
  | n :: rest => if n ≤ rest.length then some (rest.take n, rest.drop n) else none

/-- Decoder of the sample codec: a sequence of signed blobs, each written as
three length-prefixed fields (blob, signature bytes, signer metadata); the
fuel bounds the number of blobs. -/
def decodeBlobs : Nat → List Nat → Option (List SignedBlobS)
  | 0, bs => if bs = [] then some [] else none
  | fuel + 1, bs =>
    if bs = [] then some []
    else
      match takeField bs with
      | none => none
      | some (blob, r1) =>
        match takeField r1 with
        | none => none
        | some (sig, r2) =>
          match takeField r2 with
          | none => none
          | some (md, r3) =>
            (decodeBlobs fuel r3).map fun raws => ⟨blob, some ⟨sig, md⟩⟩ :: raws

/-- Encoder of the sample codec for one signed blob (an absent signature is
written as an empty one). -/
def encodeBlob (sb : SignedBlobS) : List Nat :=
  match sb.Sign with
  | none => sb.Blob.length :: sb.Blob ++ [0, 0]
  | some s =>
    sb.Blob.length :: sb.Blob ++ (s.Signature.length :: s.Signature)
      ++ (s.Meta.length :: s.Meta)

/-- Decoder of the sample codec: a sequence of three-byte hop field blobs. -/
def chunk3 : List Nat → Option (List HopEntry)
  | [] => some []
  | a :: b :: c :: rest => (chunk3 rest).map fun hes => ⟨[a, b, c]⟩ :: hes
  | _ => none

/-- A concrete choice of the collaborators, used to evaluate the definitions
on examples: blobs are plain concatenations, a hop field blob is the three
numbers expiry, ingress, egress, and the hash is the identity. -/
def sampleExt : Ext where
  packASEntry ase := .ok (ase.RawIA :: (ase.HopEntries.map fun he => he.RawHopField).flatten)
  packSignedBlob sb :=
    sb.Blob ++ (match sb.Sign with
      | none => []
      | some s => s.Meta ++ s.Signature)
  newSData infoF := ⟨[infoF.TsInt, infoF.Hops]⟩
  packSData pss := .ok pss.RawInfo
  validateSData sd :=
    match sd with
    | none => some (Error.foreign 2)
    | some pss => if pss.RawInfo.length = 2 then none else some (Error.foreign 3)
  hopField he :=
    match he.RawHopField with
    | [e, i, o] => .ok ⟨i, o, e⟩
    | _ => .error (Error.foreign 4)
  validateASEntry := ASEntry.Validate
  toIA n := ⟨n / 2 ^ 48, n % 2 ^ 48⟩
  orderBytesIA n := [n]
  orderBytesIFID n := [n]
  sha256 b := b
  parseSData raw := if raw.length = 2 then .ok ⟨raw⟩ else .error (Error.foreign 5)
  parseASEntry blob :=
    match blob with
    | [] => .error (Error.foreign 6)
    | ia :: rest =>
      match chunk3 rest with
      | none => .error (Error.foreign 6)
      | some hes => .ok ⟨ia, hes, IA.zero, IA.zero⟩
  packSegment rawSData raws := .ok (rawSData.length :: rawSData ++ (raws.map encodeBlob).flatten)
  parseSegment b :=
    match takeField b with
    | none => .error (Error.foreign 7)
    | some (rawSData, rest) =>
      match decodeBlobs rest.length rest with
      | none => .error (Error.foreign 7)
      | some raws => .ok (rawSData, raws)
  infoF sd :=
    match sd with
    | some ⟨[ts, hops]⟩ => .ok ⟨ts, hops⟩
    | _ => .error (Error.foreign 8)
  timestamp info := (info.TsInt : Int) * 1000000000
  toDuration e := ((e : Int) + 1) * 337 * 1000000000
  MaxTTL := 86400

/-- The concatenation `RawSData ++ Pack(raw 0) ++ ... ++ Pack(raw n-1) ++ b`
for a segment with `n` raw entries: the signature scope of section 4.2 for an
entry with packed form `b` that comes next. -/
def signScope (x : Ext) (ps : PathSegment) (b : RawBytes) : RawBytes :=
  ps.RawSData ++ (ps.RawASEntries.map x.packSignedBlob).flatten ++ b

/-- The segment `ps` with one more entry `ase`, whose raw form is the blob
`b` with signature metadata `sign`, and with both id caches empty. -/
def appended (ps : PathSegment) (ase : ASEntry) (b : RawBytes) (sign : Option SignS) :
    PathSegment :=
  { ps with
    RawASEntries := ps.RawASEntries ++ [{ Blob := b, Sign := sign }]
    ASEntries := ps.ASEntries ++ [ase]
    id := none
    fullId := none }

/-- The byte strings that `sigPack(i)` concatenates, one per component:
`RawSData`, the packed signed blobs of raw entries `0..i-1`, and the blob of
raw entry `i` (absent when `i` is out of range). -/
def chainParts (x : Ext) (ps : PathSegment) (i : Nat) : List RawBytes :=
  ps.RawSData ::
    ((ps.RawASEntries.take i).map x.packSignedBlob
      ++ ((ps.RawASEntries[i]?).map SignedBlobS.Blob).toList)

/-- A verifier that accepts exactly the bytes `data` with the metadata `sig`
and rejects everything else. -/
def acceptOnly (data : RawBytes) (sig : Option SignS) : Verifier :=
  fun d s => if d = data ∧ s = sig then none else some (Error.foreign 9)

/-- The IA of the parsed entry at index `j` (the zero IA when there is no
such entry). -/
def iaAt (x : Ext) (ps : PathSegment) (j : Nat) : IA :=
  ((ps.ASEntries[j]?).map (ASEntry.IA x)).getD IA.zero

/-- The IA that precedes index `i` in the chain: the IA of entry `i - 1`, and
the zero IA for `i = 0`. -/
def prevIAOf (x : Ext) (ps : PathSegment) (i : Nat) : IA :=
  if i = 0 then IA.zero else iaAt x ps (i - 1)

/-- The IA that follows index `i` in the chain: the IA of entry `i + 1`, and
the zero IA for the last index. -/
def nextIAOf (x : Ext) (ps : PathSegment) (i : Nat) : IA :=
  if i + 1 = ps.ASEntries.length then IA.zero else iaAt x ps (i + 1)

/-- Every hop entry of every parsed AS entry has a parsable hop field. -/
def hopsParsable (x : Ext) (ps : PathSegment) : Prop :=
  ∀ ase ∈ ps.ASEntries, ∀ he ∈ ase.HopEntries, (x.hopField he).isOk = true

instance (x : Ext) (ps : PathSegment) : Decidable (hopsParsable x ps) := by
  unfold hopsParsable
  infer_instance

/-- The segment `ps1` is `ps` up to the recorded egress neighbour of the last
parsed entry: same `SData`, same numbers of raw and parsed entries, and at
every index the same AS identity, hop entries and ingress neighbour, and the
same egress neighbour except at the last index. -/
def sameButLastEgress (ps ps1 : PathSegment) : Prop :=
  ps1.SData = ps.SData ∧ ps1.RawASEntries.length = ps.RawASEntries.length ∧
  ps1.ASEntries.length = ps.ASEntries.length ∧
  ∀ i a a1, ps.ASEntries[i]? = some a → ps1.ASEntries[i]? = some a1 →
    a1.RawIA = a.RawIA ∧ a1.HopEntries = a.HopEntries ∧ a1.IngressIA = a.IngressIA ∧
    (i + 1 < ps.ASEntries.length → a1.EgressIA = a.EgressIA)

/-- The parse error of a hop entry, if its hop field does not parse. -/
def hopError (x : Ext) (he : HopEntry) : Option Error :=
  match x.hopField he with
  | .error err => some err
  | .ok _ => none

/-- The parse error of the first hop entry of `ase`, in hop order, whose hop
field does not parse. -/
def firstHopError (x : Ext) (ase : ASEntry) : Option Error :=
  ase.HopEntries.findSome? (hopError x)

/-- The first AS entry, in chain order, that has an unparsable hop entry: its
index, the entry, and the parse error of its first unparsable hop entry. -/
def firstBadEntry (x : Ext) (ases : List ASEntry) : Option (Nat × ASEntry × Error) :=
  ases.enum.findSome? fun p => (firstHopError x p.2).map fun err => (p.1, p.2, err)

/-- The relative TTL of a hop entry: the duration of the expiry time of its
hop field, when the hop field parses. -/
def hopTtl (x : Ext) (he : HopEntry) : Option Int :=
  match x.hopField he with
  | .ok hf => some (x.toDuration hf.ExpTime)
  | .error _ => none

/-- Every hop entry of a chain, primary and peering, in AS-entry order and
then hop order. -/
def hopsOf (ases : List ASEntry) : List HopEntry :=
  (ases.map fun ase => ase.HopEntries).flatten

/-- The relative TTLs of all hop fields of the segment. -/
def hopTtls (x : Ext) (ps : PathSegment) : List Int :=
  (hopsOf ps.ASEntries).filterMap (hopTtl x)

/-! ## Sample data -/

/-- A hop entry whose blob parses under `sampleExt`. -/
def hopA : HopEntry := ⟨[100, 0, 5]⟩

/-- A hop entry whose blob does not parse under `sampleExt`. -/
def hopBad : HopEntry := ⟨[9]⟩

/-- First AS of the sample chain: IA number 1, no ingress neighbour, egress
neighbour AS 2. -/
def aseA : ASEntry := ⟨1, [hopA], IA.zero, ⟨0, 2⟩⟩

/-- Second AS of the sample chain: IA number 2, ingress neighbour AS 1, no
egress neighbour. -/
def aseB : ASEntry := ⟨2, [⟨[50, 6, 0]⟩], ⟨0, 1⟩, IA.zero⟩

/-- A signer that always succeeds, with a fixed signature. -/
def okSigner : Signer := fun _ => (some ⟨[7], [8]⟩, none)

/-- A signer that always fails (and returns no metadata). -/
def failSigner : Signer := fun _ => (none, some (Error.foreign 1))

/-- An empty segment as `NewSeg` builds it under `sampleExt` from the info
field with timestamp 10. -/
def seg0 : PathSegment :=
  { RawSData := [10, 0], SData := some ⟨[10, 0]⟩, RawASEntries := [], ASEntries := [],
    id := none, fullId := none }

/-- The segment `seg0` after `aseA` was appended with `okSigner`, with a
filled id cache. -/
def seg1 : PathSegment :=
  { RawSData := [10, 0], SData := some ⟨[10, 0]⟩,
    RawASEntries := [⟨[1, 100, 0, 5], some ⟨[7], [8]⟩⟩], ASEntries := [aseA],
    id := some [1, 0, 5], fullId := none }

/-- The segment `seg1` after `aseB` was appended with `okSigner`. -/
def seg2 : PathSegment :=
  { RawSData := [10, 0], SData := some ⟨[10, 0]⟩,
    RawASEntries := [⟨[1, 100, 0, 5], some ⟨[7], [8]⟩⟩, ⟨[2, 50, 6, 0], some ⟨[7], [8]⟩⟩],
    ASEntries := [aseA, aseB], id := none, fullId := none }

/-- The two appends that build `seg2` from `seg0`. -/
def sampleSteps : List (ASEntry × Signer) := [(aseA, okSigner), (aseB, okSigner)]

/-- The segment `seg2` with the boundary between raw entry 0 and raw entry 1
moved by one byte: the signature of entry 0 gains the byte `2`, the blob of
entry 1 loses its first byte `2`. -/
def seg2Shifted : PathSegment :=
  { seg2 with
    RawASEntries := [⟨[1, 100, 0, 5], some ⟨[7, 2], [8]⟩⟩, ⟨[50, 6, 0], some ⟨[7], [8]⟩⟩] }

/-- The segment `seg2` with the boundary between `RawSData` and the blob of
raw entry 0 moved by one byte. -/
def seg2Reframed : PathSegment :=
  { seg2 with
    RawSData := [10]
    RawASEntries := [⟨[0, 1, 100, 0, 5], some ⟨[7], [8]⟩⟩, ⟨[2, 50, 6, 0], some ⟨[7], [8]⟩⟩] }

/-- The segment `seg2` with one byte of the blob of raw entry 0 changed in
place. -/
def seg2Flipped : PathSegment :=
  { seg2 with
    RawASEntries := [⟨[1, 100, 0, 6], some ⟨[7], [8]⟩⟩, ⟨[2, 50, 6, 0], some ⟨[7], [8]⟩⟩] }

/-- The one-entry segment `seg1` with another egress neighbour recorded in its
only entry. -/
def seg1Other : PathSegment :=
  { seg1 with ASEntries := [{ aseA with EgressIA := ⟨3, 4⟩ }] }

/-- A segment with one raw entry and no parsed entry. -/
def segMismatch : PathSegment :=
  { seg1 with ASEntries := [] }

/-- An AS entry (IA number 2, ingress neighbour AS 1, no egress neighbour)
whose primary hop parses and whose peering hop does not. -/
def aseBad : ASEntry := ⟨2, [⟨[50, 6, 0]⟩, hopBad], ⟨0, 1⟩, IA.zero⟩

/-- A linked two-entry segment whose entry 1 is `aseBad`. -/
def segBad1 : PathSegment :=
  { RawSData := [10, 0], SData := some ⟨[10, 0]⟩,
    RawASEntries := [⟨[1, 100, 0, 5], some ⟨[7], [8]⟩⟩, ⟨[2, 50, 6, 0, 9], some ⟨[7], [8]⟩⟩],
    ASEntries := [aseA, aseBad], id := none, fullId := none }

/-- A linked three-entry segment (AS 3, AS 1, AS 2) whose entry 2 is
`aseBad`. -/
def segBad2 : PathSegment :=
  { RawSData := [10, 0], SData := some ⟨[10, 0]⟩,
    RawASEntries := [⟨[3, 100, 0, 5], some ⟨[7], [8]⟩⟩, ⟨[1, 100, 0, 5], some ⟨[7], [8]⟩⟩,
      ⟨[2, 50, 6, 0, 9], some ⟨[7], [8]⟩⟩],
    ASEntries := [⟨3, [hopA], IA.zero, ⟨0, 1⟩⟩, ⟨1, [hopA], ⟨0, 3⟩, ⟨0, 2⟩⟩, aseBad],
    id := none, fullId := none }

/-- The collaborators of `sampleExt` with a lossless codec for AS entries: the
packed form also holds the two recorded neighbours. -/
def codecExt : Ext :=
  { sampleExt with
    packASEntry := fun ase =>
      .ok ([ase.RawIA, ase.IngressIA.I, ase.IngressIA.A, ase.EgressIA.I, ase.EgressIA.A]
        ++ (ase.HopEntries.map fun he => he.RawHopField).flatten)
    parseASEntry := fun blob =>
      match blob with
      | ia :: inI :: inA :: outI :: outA :: rest =>
        match chunk3 rest with
        | none => .error (Error.foreign 6)
        | some hes => .ok ⟨ia, hes, ⟨inI, inA⟩, ⟨outI, outA⟩⟩
      | _ => .error (Error.foreign 6) }

/-- The segment grown from `seg0` by `sampleSteps` under `codecExt`. -/
def segC2 : PathSegment :=
  { RawSData := [10, 0], SData := some ⟨[10, 0]⟩,
    RawASEntries := [⟨[1, 0, 0, 0, 2, 100, 0, 5], some ⟨[7], [8]⟩⟩,
      ⟨[2, 0, 1, 0, 0, 50, 6, 0], some ⟨[7], [8]⟩⟩],
    ASEntries := [aseA, aseB], id := none, fullId := none }

/-- The one-entry segment `seg1` (whose id cache holds the hash of its chain)
after its raw entry was replaced by the packed form of an entry of AS 3. -/
def segStale : PathSegment :=
  { seg1 with RawASEntries := [⟨[3, 100, 0, 5], some ⟨[7], [8]⟩⟩], fullId := some [1, 0, 5] }

/-- The segment `segStale` after `ParseRaw`: the parsed chain is re-derived
from the raw entry of AS 3, the caches are those of `segStale`. -/
def segStaleParsed : PathSegment :=
  { segStale with ASEntries := [⟨3, [hopA], IA.zero, IA.zero⟩] }

/-- A segment as `proto.ParseFromRaw` leaves it: raw data only, empty
caches. -/
def segRaw3 : PathSegment :=
  { RawSData := [10, 0], SData := none, RawASEntries := [⟨[3, 100, 0, 5], some ⟨[7], [8]⟩⟩],
    ASEntries := [], id := none, fullId := none }

/-- The segment `segRaw3` after `ParseRaw`. -/
def segRaw3Parsed : PathSegment :=
  { segRaw3 with SData := some ⟨[10, 0]⟩, ASEntries := [⟨3, [hopA], IA.zero, IA.zero⟩] }

/-- The packed form of `segC2` under `codecExt`. -/
def segC2Bytes : RawBytes :=
  [2, 10, 0, 8, 1, 0, 0, 0, 2, 100, 0, 5, 1, 7, 1, 8, 8, 2, 0, 1, 0, 0, 50, 6, 0, 1, 7, 1, 8]

/-- The segment `seg2` with one byte appended to the blob of raw entry 0. -/
def seg2Extended : PathSegment :=
  { seg2 with
    RawASEntries := [⟨[1, 100, 0, 5, 9], some ⟨[7], [8]⟩⟩, ⟨[2, 50, 6, 0], some ⟨[7], [8]⟩⟩] }

/-! ## Signature scope -/

/-- The loop of `sigPack` over the first `n` raw entries appends their packed
forms in order. -/
theorem sigPack_loop (x : Ext) (raws : List SignedBlobS) (init : RawBytes) (n : Nat)
    (hn : n ≤ raws.length) :
    (List.range n).foldlM
        (fun (data : RawBytes) (i : Nat) => do
          let sb ← raws[i]?
          pure (data ++ x.packSignedBlob sb))
        init
      = some (init ++ ((raws.take n).map x.packSignedBlob).flatten) := by
  induction n with
  | zero => simp
  | succ k ih =>
    have hk : k < raws.length := by omega
    rw [List.range_succ, List.foldlM_append, ih (by omega)]
    rw [List.take_succ, List.getElem?_eq_getElem hk]
    simp only [Option.toList, List.map_append, List.map_cons, List.map_nil,
      List.flatten_append, List.flatten_cons, List.flatten_nil, List.append_nil,
      List.append_assoc]
    simp only [Option.bind_eq_bind, Option.some_bind, List.foldlM_cons, List.foldlM_nil,
      List.getElem?_eq_getElem hk, Option.pure_def, List.append_assoc]

/-- The closed form of `sigPack` at an index in range. -/
theorem sigPack_eq (x : Ext) (ps : PathSegment) (i : Nat) (sb : SignedBlobS)
    (hi : ps.RawASEntries[i]? = some sb) :
    sigPack x ps (i : Int)
      = some (ps.RawSData ++ ((ps.RawASEntries.take i).map x.packSignedBlob).flatten
          ++ sb.Blob) := by
  have hlt : i < ps.RawASEntries.length := by
    by_contra hcon
    rw [List.getElem?_eq_none (by omega)] at hi
    cases hi
  unfold sigPack
  simp only [Int.toNat_ofNat]
  rw [sigPack_loop x ps.RawASEntries ps.RawSData i (by omega)]
  simp [hi]

/-! ## Appending an entry -/

theorem MaxAEIdx_concat (ps : PathSegment) (sb : SignedBlobS) (ases : List ASEntry) :
    MaxAEIdx { ps with RawASEntries := ps.RawASEntries ++ [sb], ASEntries := ases }
      = (ps.RawASEntries.length : Int) := by
  simp [MaxAEIdx]

/-- The call `AddASEntry` after a successful `Pack`: the signer is called once, on
`signScope`; on a signer error the segment is the old one, otherwise it is
`appended`. -/
theorem AddASEntryTrace_packed (x : Ext) (ps : PathSegment) (ase : ASEntry) (signer : Signer)
    (b : RawBytes) (hb : x.packASEntry ase = .ok b) :
    AddASEntryTrace x ps ase signer =
      match (signer (signScope x ps b)).2 with
      | some e => some ⟨ps, some e, some (signScope x ps b, (signer (signScope x ps b)).1)⟩
      | none =>
        some ⟨appended ps ase b (signer (signScope x ps b)).1, none,
          some (signScope x ps b, (signer (signScope x ps b)).1)⟩ := by
  unfold AddASEntryTrace
  rw [hb]
  simp only [MaxAEIdx_concat]
  rw [sigPack_eq x _ ps.RawASEntries.length ⟨b, none⟩ (by simp)]
  simp only [List.take_left, Option.bind_eq_bind, Option.some_bind]
  rcases hs : signer (ps.RawSData ++ (List.map x.packSignedBlob ps.RawASEntries).flatten ++ b)
    with ⟨sign, err⟩
  simp only [signScope, hs]
  have hset : setSign { ps with
        RawASEntries := ps.RawASEntries ++ [{ Blob := b, Sign := none }],
        ASEntries := ps.ASEntries ++ [ase] } (ps.RawASEntries.length : Int) sign
      = some { ps with
        RawASEntries := ps.RawASEntries ++ [{ Blob := b, Sign := sign }],
        ASEntries := ps.ASEntries ++ [ase] } := by
    simp [setSign]
  rw [hset]
  cases err with
  | none => simp [appended, invalidateIds]
  | some e => simp [popLastEntry]

example : NewSeg sampleExt ⟨10, 0⟩ = .ok seg0 := by rfl
example : AddASEntry sampleExt seg0 aseA okSigner = some ({ seg1 with id := none }, none) := by
  rfl
example : AddASEntry sampleExt seg1 aseB okSigner = some (seg2, none) := by rfl
example : AddASEntry sampleExt seg1 aseB failSigner = some (seg1, some (Error.foreign 1)) := by
  rfl
example : sigPack sampleExt seg2 1 = some [10, 0, 1, 100, 0, 5, 8, 7, 2, 50, 6, 0] := by rfl
example : sigPack sampleExt seg2 2 = none := by rfl
example : sigPack sampleExt seg2 (-1) = none := by rfl

/-- C1. Error safety of `AddASEntry`: the call never panics, and whenever it
returns an error (from `Pack` or from `Sign`) the segment after the call is the
segment before the call: same `RawASEntries`, same `ASEntries` (so same
length), same cached `id` and `fullId`, and indeed the same in every field. -/
theorem AddASEntry_error_keeps_segment (x : Ext) (ps : PathSegment) (ase : ASEntry)
    (signer : Signer) :
    (∃ r, AddASEntry x ps ase signer = some r) ∧
    ∀ (ps1 : PathSegment) (err : Error),
      AddASEntry x ps ase signer = some (ps1, some err) →
        ps1.RawASEntries = ps.RawASEntries ∧ ps1.ASEntries = ps.ASEntries ∧
        ps1.ASEntries.length = ps.ASEntries.length ∧
        ps1.id = ps.id ∧ ps1.fullId = ps.fullId ∧ ps1 = ps := by
  have key : ∀ r, AddASEntry x ps ase signer = some r →
      ∀ err, r.2 = some err → r.1 = ps := by
    intro r hr err herr
    unfold AddASEntry at hr
    cases hb : x.packASEntry ase with
    | error e =>
      simp only [AddASEntryTrace, hb, Option.map_some'] at hr
      cases hr
      rfl
    | ok b =>
      rw [AddASEntryTrace_packed x ps ase signer b hb] at hr
      cases hs : (signer (signScope x ps b)).2 with
      | none =>
        simp only [hs, Option.map_some'] at hr
        injection hr with hr
        subst hr
        cases herr
      | some e =>
        simp only [hs, Option.map_some'] at hr
        injection hr with hr
        subst hr
        rfl
  constructor
  · unfold AddASEntry
    cases hb : x.packASEntry ase with
    | error e =>
      simp only [AddASEntryTrace, hb, Option.map_some']
      exact ⟨_, rfl⟩
    | ok b =>
      rw [AddASEntryTrace_packed x ps ase signer b hb]
      cases hs : (signer (signScope x ps b)).2 <;> exact ⟨_, rfl⟩
  · intro ps1 err h
    have := key _ h err rfl
    simp only at this
    subst this
    exact ⟨rfl, rfl, rfl, rfl, rfl, rfl⟩

/-- Witness for C1: appending `aseB` to `seg1` (one entry, filled id cache)
with a failing signer returns the error and leaves `seg1` as it was. -/
theorem AddASEntry_error_keeps_segment_witness :
    AddASEntry sampleExt seg1 aseB failSigner = some (seg1, some (Error.foreign 1)) ∧
    (seg1.RawASEntries = seg1.RawASEntries ∧ seg1.ASEntries = seg1.ASEntries ∧
      seg1.ASEntries.length = seg1.ASEntries.length ∧
      seg1.id = seg1.id ∧ seg1.fullId = seg1.fullId ∧ seg1 = seg1) :=
  ⟨by rfl,
   (AddASEntry_error_keeps_segment sampleExt seg1 aseB failSigner).2 seg1 (Error.foreign 1)
     (by rfl)⟩

/-- C2. A successful `AddASEntry`: for a segment with `n` raw and `n` parsed
entries, an entry `ase` whose `Pack` gives `b`, and a signer that succeeds on
the signature scope with metadata `sig`, the call returns no error; the signer
was called on `RawSData ++ Pack(raw 0) ++ ... ++ Pack(raw n-1) ++ b`, which is
`sigPack(n)` of the resulting segment; `ASEntries` is the old sequence followed
by `ase`; `RawASEntries` is the old sequence followed by the blob `b` with
`Sign = sig`; both have length `n + 1`; both id caches are empty; the signed
data fields are untouched. -/
theorem AddASEntry_success_appends (x : Ext) (ps : PathSegment) (ase : ASEntry)
    (signer : Signer) (b : RawBytes) (sig : Option SignS) (n : Nat)
    (hraw : ps.RawASEntries.length = n) (hparsed : ps.ASEntries.length = n)
    (hb : x.packASEntry ase = .ok b)
    (hs : signer (ps.RawSData ++ (ps.RawASEntries.map x.packSignedBlob).flatten ++ b)
      = (sig, none)) :
    ∃ ps1 : PathSegment,
      AddASEntryTrace x ps ase signer
        = some ⟨ps1, none,
            some (ps.RawSData ++ (ps.RawASEntries.map x.packSignedBlob).flatten ++ b, sig)⟩ ∧
      AddASEntry x ps ase signer = some (ps1, none) ∧
      sigPack x ps1 (n : Int)
        = some (ps.RawSData ++ (ps.RawASEntries.map x.packSignedBlob).flatten ++ b) ∧
      ps1.ASEntries = ps.ASEntries ++ [ase] ∧
      ps1.RawASEntries = ps.RawASEntries ++ [{ Blob := b, Sign := sig }] ∧
      ps1.ASEntries.length = n + 1 ∧ ps1.RawASEntries.length = n + 1 ∧
      ps1.id = none ∧ ps1.fullId = none ∧
      ps1.RawSData = ps.RawSData ∧ ps1.SData = ps.SData := by
  have htr := AddASEntryTrace_packed x ps ase signer b hb
  simp only [signScope, hs] at htr
  refine ⟨appended ps ase b sig, htr, ?_, ?_, rfl, rfl, ?_, ?_, rfl, rfl, rfl, rfl⟩
  · simp only [AddASEntry, htr, Option.map_some']
  · subst hraw
    rw [sigPack_eq x (appended ps ase b sig) ps.RawASEntries.length ⟨b, sig⟩
      (by simp [appended])]
    simp [appended]
  · simp [appended, hparsed]
  · simp [appended, hraw]

/-- Witness for C2: appending `aseB` to the one-entry segment `seg1` with a
signer that succeeds. -/
theorem AddASEntry_success_appends_witness :
    ∃ ps1 : PathSegment,
      AddASEntryTrace sampleExt seg1 aseB okSigner
        = some ⟨ps1, none,
            some (seg1.RawSData
              ++ (seg1.RawASEntries.map sampleExt.packSignedBlob).flatten ++ [2, 50, 6, 0],
              some ⟨[7], [8]⟩)⟩ ∧
      AddASEntry sampleExt seg1 aseB okSigner = some (ps1, none) ∧
      sigPack sampleExt ps1 ((1 : Nat) : Int)
        = some (seg1.RawSData
            ++ (seg1.RawASEntries.map sampleExt.packSignedBlob).flatten ++ [2, 50, 6, 0]) ∧
      ps1.ASEntries = seg1.ASEntries ++ [aseB] ∧
      ps1.RawASEntries
        = seg1.RawASEntries ++ [{ Blob := [2, 50, 6, 0], Sign := some ⟨[7], [8]⟩ }] ∧
      ps1.ASEntries.length = 1 + 1 ∧ ps1.RawASEntries.length = 1 + 1 ∧
      ps1.id = none ∧ ps1.fullId = none ∧
      ps1.RawSData = seg1.RawSData ∧ ps1.SData = seg1.SData :=
  AddASEntry_success_appends sampleExt seg1 aseB okSigner [2, 50, 6, 0] (some ⟨[7], [8]⟩) 1
    (by rfl) (by rfl) (by rfl) (by rfl)

/-- C3. Signature scope: at an index `i` in range, `sigPack(i)` is `RawSData`,
then `Pack()` of the raw signed blobs `0..i-1` in order, then the `Blob` of
raw entry `i`. Hence any segment with the same `RawSData`, the same raw
entries before `i` and the same `Blob` at `i` has the same `sigPack(i)`: the
`Sign` field of entry `i` and the entries after `i` play no part. -/
theorem sigPack_scope (x : Ext) (ps : PathSegment) (i : Nat)
    (hi : i < ps.RawASEntries.length) :
    sigPack x ps (i : Int)
      = some (ps.RawSData ++ ((ps.RawASEntries.take i).map x.packSignedBlob).flatten
          ++ (ps.RawASEntries[i]).Blob) ∧
    ∀ ps1 : PathSegment,
      ps1.RawSData = ps.RawSData →
      ps1.RawASEntries.take i = ps.RawASEntries.take i →
      (ps1.RawASEntries[i]?).map SignedBlobS.Blob = some (ps.RawASEntries[i]).Blob →
      sigPack x ps1 (i : Int) = sigPack x ps (i : Int) := by
  have h0 := sigPack_eq x ps i ps.RawASEntries[i] (List.getElem?_eq_getElem hi)
  refine ⟨h0, ?_⟩
  intro ps1 hsd htake hblob
  cases hsb : ps1.RawASEntries[i]? with
  | none => simp [hsb] at hblob
  | some sb =>
    simp only [hsb, Option.map_some', Option.some.injEq] at hblob
    rw [h0, sigPack_eq x ps1 i sb hsb, hsd, htake, hblob]

/-- Witness for C3: index 0 of the two-entry segment `seg2`, compared with the
one-entry segment `seg1` whose only raw entry has the same blob. -/
theorem sigPack_scope_witness :
    0 < seg2.RawASEntries.length ∧
    (sigPack sampleExt seg2 ((0 : Nat) : Int)
      = some (seg2.RawSData ++ ((seg2.RawASEntries.take 0).map sampleExt.packSignedBlob).flatten
          ++ (seg2.RawASEntries.get ⟨0, by decide⟩).Blob) ∧
    ∀ ps1 : PathSegment,
      ps1.RawSData = seg2.RawSData →
      ps1.RawASEntries.take 0 = seg2.RawASEntries.take 0 →
      (ps1.RawASEntries[0]?).map SignedBlobS.Blob
        = some (seg2.RawASEntries.get ⟨0, by decide⟩).Blob →
      sigPack sampleExt ps1 ((0 : Nat) : Int) = sigPack sampleExt seg2 ((0 : Nat) : Int)) :=
  ⟨by decide, sigPack_scope sampleExt seg2 0 (by decide)⟩

/-! ## Signing and verifying a chain -/

/-- A successful `AddASEntry` is an `appended` segment whose signer call was
made on `signScope`. -/
theorem AddASEntry_ok_inv (x : Ext) (ps ps1 : PathSegment) (ase : ASEntry) (signer : Signer)
    (h : AddASEntry x ps ase signer = some (ps1, none)) :
    ∃ b sig, x.packASEntry ase = .ok b ∧ signer (signScope x ps b) = (sig, none) ∧
      ps1 = appended ps ase b sig ∧
      AddASEntryTrace x ps ase signer = some ⟨ps1, none, some (signScope x ps b, sig)⟩ := by
  unfold AddASEntry at h
  cases hb : x.packASEntry ase with
  | error e =>
    simp only [AddASEntryTrace, hb, Option.map_some'] at h
    cases h
  | ok b =>
    have htr := AddASEntryTrace_packed x ps ase signer b hb
    rcases hs : signer (signScope x ps b) with ⟨sig, err⟩
    rw [hs] at htr
    cases err with
    | some e =>
      simp only at htr
      rw [htr] at h
      simp only [Option.map_some'] at h
      cases h
    | none =>
      simp only at htr
      rw [htr] at h
      simp only [Option.map_some', Option.some.injEq, Prod.mk.injEq, and_true] at h
      subst h
      exact ⟨b, sig, rfl, hs, rfl, htr⟩

/-- Growing over a concatenation of steps is growing in two stages. -/
theorem growSeg_append (x : Ext) (ps : PathSegment) (l1 l2 : List (ASEntry × Signer)) :
    growSeg x ps (l1 ++ l2) = (growSeg x ps l1).bind fun p => growSeg x p l2 := by
  induction l1 generalizing ps with
  | nil => rfl
  | cons step rest ih =>
    simp only [List.cons_append, growSeg]
    rcases hadd : AddASEntry x ps step.1 step.2 with _ | ⟨p, _ | e⟩
    · rfl
    · exact ih p
    · rfl

/-- Growing keeps `RawSData` and only extends the raw entries, by one per
step. -/
theorem growSeg_extends (x : Ext) (ps psN : PathSegment) (steps : List (ASEntry × Signer))
    (h : growSeg x ps steps = some psN) :
    psN.RawSData = ps.RawSData ∧
    ∃ tail, psN.RawASEntries = ps.RawASEntries ++ tail ∧ tail.length = steps.length := by
  induction steps generalizing ps with
  | nil =>
    simp only [growSeg, Option.some.injEq] at h
    subst h
    exact ⟨rfl, [], by simp, rfl⟩
  | cons step rest ih =>
    simp only [growSeg] at h
    rcases hadd : AddASEntry x ps step.1 step.2 with _ | ⟨p, _ | e⟩
    · simp [hadd] at h
    · rw [hadd] at h
      simp only at h
      obtain ⟨b, sig, -, -, hp, -⟩ := AddASEntry_ok_inv x ps p step.1 step.2 hadd
      obtain ⟨hsd, tail, htail, hlen⟩ := ih p h
      subst hp
      refine ⟨hsd, { Blob := b, Sign := sig } :: tail, ?_, by simp [hlen]⟩
      rw [htail]
      simp [appended]
    · simp [hadd] at h

/-- After a successful append to `psi` and any number of further successful
appends, verifying the entry appended to `psi` hands the verifier the bytes
and the metadata of that entry's signer call. -/
theorem verify_after_growth (x : Ext) (psi psi1 psN : PathSegment) (ase : ASEntry)
    (signer : Signer) (rest : List (ASEntry × Signer))
    (hadd : AddASEntry x psi ase signer = some (psi1, none))
    (hgrow : growSeg x psi1 rest = some psN) :
    ∃ data sig,
      AddASEntryTrace x psi ase signer = some ⟨psi1, none, some (data, sig)⟩ ∧
      signer data = (sig, none) ∧
      sigPack x psN (psi.RawASEntries.length : Int) = some data ∧
      ∀ verifier : Verifier,
        VerifyASEntry x psN verifier (psi.RawASEntries.length : Int)
          = some (verifier data sig) := by
  obtain ⟨b, sig, -, hsig, hp, htr⟩ := AddASEntry_ok_inv x psi psi1 ase signer hadd
  obtain ⟨hsd, tail, htail, -⟩ := growSeg_extends x psi1 psN rest hgrow
  subst hp
  have hraw : psN.RawASEntries = psi.RawASEntries ++ ({ Blob := b, Sign := sig } :: tail) := by
    rw [htail]
    simp [appended]
  have hget : psN.RawASEntries[psi.RawASEntries.length]? = some { Blob := b, Sign := sig } := by
    rw [hraw, List.getElem?_append_right (le_refl _)]
    simp
  have hpack := sigPack_eq x psN psi.RawASEntries.length _ hget
  have htake : psN.RawASEntries.take psi.RawASEntries.length = psi.RawASEntries := by
    rw [hraw]
    simp
  have hidx : validateIdx psN (psi.RawASEntries.length : Int) = none := by
    have hlen : psN.RawASEntries.length = psi.RawASEntries.length + (tail.length + 1) := by
      rw [hraw]
      simp
    unfold validateIdx MaxAEIdx
    rw [if_neg]
    rw [hlen]
    push_cast
    omega
  refine ⟨signScope x psi b, sig, htr, hsig, ?_, ?_⟩
  · rw [hpack, htake, hsd]
    simp [signScope, appended]
  · intro verifier
    unfold VerifyASEntry
    rw [hidx, hpack, htake, hsd]
    simp [hget, signScope, appended]

/-- The signer call of step `i` of a grown segment, and what `sigPack(i)` and
`VerifyASEntry(i)` do on the final segment. -/
theorem grow_signCall (x : Ext) (infoF : InfoField) (ps0 psN : PathSegment)
    (steps : List (ASEntry × Signer)) (i : Nat)
    (hnew : NewSeg x infoF = .ok ps0)
    (hgrow : growSeg x ps0 steps = some psN)
    (hi : i < steps.length) :
    psN.RawASEntries.length = steps.length ∧
    ∃ psi psi1 data sig,
      growSeg x ps0 (steps.take i) = some psi ∧
      AddASEntryTrace x psi (steps[i]).1 (steps[i]).2 = some ⟨psi1, none, some (data, sig)⟩ ∧
      (steps[i]).2 data = (sig, none) ∧
      sigPack x psN (i : Int) = some data ∧
      ∀ verifier : Verifier,
        VerifyASEntry x psN verifier (i : Int) = some (verifier data sig) := by
  have hps0 : ps0.RawASEntries = [] := by
    unfold NewSeg at hnew
    cases hp : x.packSData (x.newSData infoF) with
    | error e => simp [hp] at hnew
    | ok raw =>
      simp only [hp, Except.ok.injEq] at hnew
      subst hnew
      rfl
  have hsplit : steps = steps.take i ++ (steps[i] :: steps.drop (i + 1)) := by
    rw [List.getElem_cons_drop, List.take_append_drop]
  constructor
  · obtain ⟨-, tail, htail, hlen⟩ := growSeg_extends x ps0 psN steps hgrow
    rw [htail, hps0]
    simpa using hlen
  · rw [hsplit, growSeg_append] at hgrow
    cases hpsi : growSeg x ps0 (steps.take i) with
    | none => simp [hpsi] at hgrow
    | some psi =>
      rw [hpsi] at hgrow
      simp only [Option.some_bind, growSeg] at hgrow
      rcases hadd : AddASEntry x psi (steps[i]).1 (steps[i]).2 with _ | ⟨psi1, _ | e⟩
      · simp [hadd] at hgrow
      · rw [hadd] at hgrow
        simp only at hgrow
        obtain ⟨data, sig, htr, hsig, hpk, hver⟩ :=
          verify_after_growth x psi psi1 psN _ _ _ hadd hgrow
        obtain ⟨-, tail, htail, hlen⟩ := growSeg_extends x ps0 psi _ hpsi
        have hleni : psi.RawASEntries.length = i := by
          rw [htail, hps0]
          simp only [List.nil_append, hlen, List.length_take]
          omega
        rw [hleni] at hver hpk
        exact ⟨psi, psi1, data, sig, rfl, htr, hsig, hpk, hver⟩
      · simp [hadd] at hgrow

/-- C4. Verification replays what was signed: take a segment made by `NewSeg`
and grown by successful `AddASEntry` calls `steps`. For every index `i` of the
final chain, the call that appended entry `i` (to the segment grown by the
first `i` steps) passed some bytes `data` to the signer and got metadata `sig`
back without error, and `VerifyASEntry(i)` on the final segment returns the
verifier's answer on exactly `data` and `sig`, for every verifier and however
many entries follow entry `i`. -/
theorem VerifyASEntry_replays_signing (x : Ext) (infoF : InfoField) (ps0 psN : PathSegment)
    (steps : List (ASEntry × Signer)) (i : Nat)
    (hnew : NewSeg x infoF = .ok ps0)
    (hgrow : growSeg x ps0 steps = some psN)
    (hi : i < steps.length) :
    psN.RawASEntries.length = steps.length ∧
    ∃ psi psi1 data sig,
      growSeg x ps0 (steps.take i) = some psi ∧
      AddASEntryTrace x psi (steps[i]).1 (steps[i]).2 = some ⟨psi1, none, some (data, sig)⟩ ∧
      (steps[i]).2 data = (sig, none) ∧
      ∀ verifier : Verifier,
        VerifyASEntry x psN verifier (i : Int) = some (verifier data sig) := by
  obtain ⟨hlen, psi, psi1, data, sig, h1, h2, h3, -, h5⟩ :=
    grow_signCall x infoF ps0 psN steps i hnew hgrow hi
  exact ⟨hlen, psi, psi1, data, sig, h1, h2, h3, h5⟩

/-- Witness for C4: entry 0 of the two-entry segment `seg2`, grown from
`seg0` by `sampleSteps`. -/
theorem VerifyASEntry_replays_signing_witness :
    NewSeg sampleExt ⟨10, 0⟩ = .ok seg0 ∧
    growSeg sampleExt seg0 sampleSteps = some seg2 ∧
    0 < sampleSteps.length ∧
    (seg2.RawASEntries.length = sampleSteps.length ∧
    ∃ psi psi1 data sig,
      growSeg sampleExt seg0 (sampleSteps.take 0) = some psi ∧
      AddASEntryTrace sampleExt psi (sampleSteps.get ⟨0, by decide⟩).1
          (sampleSteps.get ⟨0, by decide⟩).2
        = some ⟨psi1, none, some (data, sig)⟩ ∧
      (sampleSteps.get ⟨0, by decide⟩).2 data = (sig, none) ∧
      ∀ verifier : Verifier,
        VerifyASEntry sampleExt seg2 verifier ((0 : Nat) : Int) = some (verifier data sig)) :=
  ⟨by rfl, by rfl, by decide,
   VerifyASEntry_replays_signing sampleExt ⟨10, 0⟩ seg0 seg2 sampleSteps 0
     (by rfl) (by rfl) (by decide)⟩

/-! ## Chain of custody -/

/-- Concatenation is injective on lists of byte strings whose components have
the same lengths. -/
theorem flatten_inj_of_lengths {α : Type} (l1 l2 : List (List α))
    (hlen : l1.map List.length = l2.map List.length)
    (hflat : l1.flatten = l2.flatten) : l1 = l2 := by
  induction l1 generalizing l2 with
  | nil =>
    cases l2 with
    | nil => rfl
    | cons b l2 => simp at hlen
  | cons a l1 ih =>
    cases l2 with
    | nil => simp at hlen
    | cons b l2 =>
      simp only [List.map_cons, List.cons.injEq] at hlen
      simp only [List.flatten_cons] at hflat
      obtain ⟨hab, hrest⟩ := List.append_inj hflat hlen.1
      rw [hab, ih l2 hlen.2 hrest]

/-- At an index in range `sigPack(i)` is the concatenation of `chainParts`. -/
theorem sigPack_eq_flatten (x : Ext) (ps : PathSegment) (i : Nat)
    (hi : i < ps.RawASEntries.length) :
    sigPack x ps (i : Int) = some (chainParts x ps i).flatten := by
  rw [sigPack_eq x ps i ps.RawASEntries[i] (List.getElem?_eq_getElem hi)]
  simp [chainParts, List.getElem?_eq_getElem hi]

example : sigPack sampleExt seg2Shifted 1 = sigPack sampleExt seg2 1 := by rfl
example : sigPack sampleExt seg2Reframed 0 = sigPack sampleExt seg2 0 := by rfl
example : sigPack sampleExt seg2Flipped 1 ≠ sigPack sampleExt seg2 1 := by decide
example : sigPack sampleExt seg2Extended 1 ≠ sigPack sampleExt seg2 1 := by decide
example : sigPack sampleExt seg1 1 = none := by rfl

/-- Whatever `SignedBlobS.Pack` is, `sigPack(0)` on `seg2Reframed` is
`sigPack(0)` on `seg2`: index 0 reads `RawSData` and the blob of raw entry 0
only. -/
theorem sigPack_reframed (x : Ext) : sigPack x seg2Reframed 0 = sigPack x seg2 0 := by
  rfl

/-- C5 as stated fails: `sigPack` concatenates its components without framing,
so an alteration that moves a byte across a component boundary leaves the
concatenation unchanged. `seg2` is grown by two successful `AddASEntry` calls;
the second signer call was on the bytes shown. In `seg2Shifted` raw entry 0
(its signature metadata) and the blob of raw entry 1 are both altered, yet
`sigPack(1)` is the signed byte sequence and a verifier that accepts only the
signed bytes accepts entry 1 (with `SignedBlobS.Pack` as in `sampleExt`: the
blob followed by the signature metadata). In `seg2Reframed` the blob of raw
entry 0 is altered (together with `RawSData`), and entry 0 still verifies;
this half reads `RawSData` and a blob only, not `SignedBlobS.Pack`. -/
theorem chain_of_custody_counterexample :
    growSeg sampleExt seg0 sampleSteps = some seg2 ∧
    AddASEntryTrace sampleExt seg1 aseB okSigner
      = some ⟨seg2, none, some ([10, 0, 1, 100, 0, 5, 8, 7, 2, 50, 6, 0], some ⟨[7], [8]⟩)⟩ ∧
    chainParts sampleExt seg2Shifted 1 ≠ chainParts sampleExt seg2 1 ∧
    seg2Shifted.RawSData = seg2.RawSData ∧
    sigPack sampleExt seg2Shifted 1 = some [10, 0, 1, 100, 0, 5, 8, 7, 2, 50, 6, 0] ∧
    VerifyASEntry sampleExt seg2Shifted
      (acceptOnly [10, 0, 1, 100, 0, 5, 8, 7, 2, 50, 6, 0] (some ⟨[7], [8]⟩)) 1 = some none ∧
    AddASEntryTrace sampleExt seg0 aseA okSigner
      = some ⟨{ seg1 with id := none }, none, some ([10, 0, 1, 100, 0, 5], some ⟨[7], [8]⟩)⟩ ∧
    chainParts sampleExt seg2Reframed 0 ≠ chainParts sampleExt seg2 0 ∧
    (seg2Reframed.RawASEntries[0]?).map SignedBlobS.Blob
      ≠ (seg2.RawASEntries[0]?).map SignedBlobS.Blob ∧
    sigPack sampleExt seg2Reframed 0 = some [10, 0, 1, 100, 0, 5] ∧
    VerifyASEntry sampleExt seg2Reframed
      (acceptOnly [10, 0, 1, 100, 0, 5] (some ⟨[7], [8]⟩)) 0 = some none := by
  refine ⟨by rfl, by rfl, by decide, by rfl, by rfl, by rfl, by rfl, by decide, by decide,
    by rfl, by rfl⟩

/-- When `sigPack` returns, the index is in range. -/
theorem sigPack_some_inv (x : Ext) (ps : PathSegment) (i : Nat) (d : RawBytes)
    (h : sigPack x ps (i : Int) = some d) : i < ps.RawASEntries.length := by
  by_contra hcon
  unfold sigPack at h
  simp only [Int.toNat_ofNat, List.getElem?_eq_none (not_lt.mp hcon)] at h
  cases hloop : List.foldlM
      (fun (data : RawBytes) (j : Nat) => do
        let sb ← ps.RawASEntries[j]?
        pure (data ++ x.packSignedBlob sb))
      ps.RawSData (List.range i) with
  | none =>
    rw [hloop] at h
    cases h
  | some data =>
    rw [hloop] at h
    simp only [Option.bind_eq_bind, Option.some_bind, Option.none_bind, ite_self] at h
    cases h

/-- Altering one component of a list of byte strings alters the
concatenation. -/
theorem flatten_ne_of_one_part {α : Type} (pre post : List (List α)) (c cT : List α)
    (h : cT ≠ c) : (pre ++ cT :: post).flatten ≠ (pre ++ c :: post).flatten := by
  intro heq
  simp only [List.flatten_append, List.flatten_cons] at heq
  have h1 := List.append_cancel_left heq
  exact h (List.append_cancel_right h1)

/-- C5, amended. Chain of custody up to the concatenation: take a segment
`psN` made by `NewSeg` and grown by successful `AddASEntry` calls and an index
`i` of its chain. The bytes `data` signed for entry `i` are the concatenation
of the components of its signature scope (`RawSData`, the packed signed blobs
of entries `0..i-1`, the blob of entry `i`). For every segment `psT`:
`sigPack(i)` on `psT` yields `data` exactly when `i` is in range and the
components of `psT` have the same concatenation; so if the alteration changes
the concatenation (or removes entry `i`), every verifier that rejects all
byte sequences other than `data` makes `VerifyASEntry(i)` on `psT` return an
error. The concatenation is changed by every alteration that keeps the
lengths of the components and changes one of them, by every alteration that
changes the total length (bytes appended or removed), and by every alteration
of a single component. -/
theorem chain_of_custody_detects (x : Ext) (infoF : InfoField) (ps0 psN : PathSegment)
    (steps : List (ASEntry × Signer)) (i : Nat)
    (hnew : NewSeg x infoF = .ok ps0)
    (hgrow : growSeg x ps0 steps = some psN)
    (hi : i < steps.length) :
    ∃ data sig,
      (steps[i]).2 data = (sig, none) ∧
      (∀ verifier : Verifier, VerifyASEntry x psN verifier (i : Int) = some (verifier data sig)) ∧
      data = (chainParts x psN i).flatten ∧
      ∀ psT : PathSegment,
        (sigPack x psT (i : Int) = some data ↔
          (i < psT.RawASEntries.length ∧
            (chainParts x psT i).flatten = (chainParts x psN i).flatten)) ∧
        ((i < psT.RawASEntries.length →
            (chainParts x psT i).flatten ≠ (chainParts x psN i).flatten) →
          ∀ verifier : Verifier, (∀ d s, d ≠ data → verifier d s ≠ none) →
            ∃ err, VerifyASEntry x psT verifier (i : Int) = some (some err)) ∧
        ((chainParts x psT i).map List.length = (chainParts x psN i).map List.length →
          chainParts x psT i ≠ chainParts x psN i →
          (chainParts x psT i).flatten ≠ (chainParts x psN i).flatten) ∧
        ((chainParts x psT i).flatten.length ≠ (chainParts x psN i).flatten.length →
          (chainParts x psT i).flatten ≠ (chainParts x psN i).flatten) ∧
        (∀ (pre post : List RawBytes) (c cT : RawBytes),
          chainParts x psN i = pre ++ c :: post → chainParts x psT i = pre ++ cT :: post →
          cT ≠ c → (chainParts x psT i).flatten ≠ (chainParts x psN i).flatten) := by
  obtain ⟨hN, -, -, data, sig, -, -, hsig, hpk, hver⟩ :=
    grow_signCall x infoF ps0 psN steps i hnew hgrow hi
  have hiN : i < psN.RawASEntries.length := by omega
  have hdata : data = (chainParts x psN i).flatten := by
    rw [sigPack_eq_flatten x psN i hiN] at hpk
    simp only [Option.some.injEq] at hpk
    exact hpk.symm
  refine ⟨data, sig, hsig, hver, hdata, ?_⟩
  intro psT
  have hiff : sigPack x psT (i : Int) = some data ↔
      (i < psT.RawASEntries.length ∧
        (chainParts x psT i).flatten = (chainParts x psN i).flatten) := by
    constructor
    · intro h
      have hiT := sigPack_some_inv x psT i data h
      rw [sigPack_eq_flatten x psT i hiT] at h
      simp only [Option.some.injEq] at h
      exact ⟨hiT, h.trans hdata⟩
    · rintro ⟨hiT, heq⟩
      rw [sigPack_eq_flatten x psT i hiT, heq, hdata]
  refine ⟨hiff, ?_, ?_, ?_, ?_⟩
  · intro halt verifier hrej
    by_cases hiT : i < psT.RawASEntries.length
    · have hpkT := sigPack_eq_flatten x psT i hiT
      have hne : (chainParts x psT i).flatten ≠ data := by
        rw [hdata]
        exact halt hiT
      have hidx : validateIdx psT (i : Int) = none := by
        unfold validateIdx MaxAEIdx
        rw [if_neg]
        omega
      unfold VerifyASEntry
      rw [hidx, hpkT]
      simp only [Option.bind_eq_bind, Option.some_bind, Int.toNat_ofNat,
        List.getElem?_eq_getElem hiT, Option.pure_def]
      rw [if_neg (by omega)]
      cases hv : verifier (chainParts x psT i).flatten (psT.RawASEntries[i]).Sign with
      | none => exact absurd hv (hrej _ _ hne)
      | some err => exact ⟨err, rfl⟩
    · unfold VerifyASEntry validateIdx MaxAEIdx
      rw [if_pos (by omega)]
      exact ⟨_, rfl⟩
  · intro hlen halt heq
    exact halt (flatten_inj_of_lengths _ _ hlen heq)
  · intro hlen heq
    exact hlen (congrArg List.length heq)
  · intro pre post c cT hpN hpT hne
    rw [hpN, hpT]
    exact flatten_ne_of_one_part pre post c cT hne

/-- Witness for C5 (amended): the two-entry segment `seg2` at index 1. The
segment `seg2Extended` appends one byte to the blob of raw entry 0, which
changes the length of that component; entry 1 is untouched, and a verifier
that accepts only the signed bytes rejects it. -/
theorem chain_of_custody_detects_witness :
    NewSeg sampleExt ⟨10, 0⟩ = .ok seg0 ∧
    growSeg sampleExt seg0 sampleSteps = some seg2 ∧
    1 < sampleSteps.length ∧
    (chainParts sampleExt seg2Extended 1).map List.length
      ≠ (chainParts sampleExt seg2 1).map List.length ∧
    (chainParts sampleExt seg2Extended 1).flatten ≠ (chainParts sampleExt seg2 1).flatten ∧
    VerifyASEntry sampleExt seg2Extended
      (acceptOnly [10, 0, 1, 100, 0, 5, 8, 7, 2, 50, 6, 0] (some ⟨[7], [8]⟩)) 1
        = some (some (Error.foreign 9)) ∧
    ∃ data sig,
      (sampleSteps.get ⟨1, by decide⟩).2 data = (sig, none) ∧
      (∀ verifier : Verifier,
        VerifyASEntry sampleExt seg2 verifier ((1 : Nat) : Int) = some (verifier data sig)) ∧
      data = (chainParts sampleExt seg2 1).flatten ∧
      ∀ psT : PathSegment,
        (sigPack sampleExt psT ((1 : Nat) : Int) = some data ↔
          (1 < psT.RawASEntries.length ∧
            (chainParts sampleExt psT 1).flatten = (chainParts sampleExt seg2 1).flatten)) ∧
        ((1 < psT.RawASEntries.length →
            (chainParts sampleExt psT 1).flatten ≠ (chainParts sampleExt seg2 1).flatten) →
          ∀ verifier : Verifier, (∀ d s, d ≠ data → verifier d s ≠ none) →
            ∃ err, VerifyASEntry sampleExt psT verifier ((1 : Nat) : Int) = some (some err)) ∧
        ((chainParts sampleExt psT 1).map List.length
            = (chainParts sampleExt seg2 1).map List.length →
          chainParts sampleExt psT 1 ≠ chainParts sampleExt seg2 1 →
          (chainParts sampleExt psT 1).flatten ≠ (chainParts sampleExt seg2 1).flatten) ∧
        ((chainParts sampleExt psT 1).flatten.length
            ≠ (chainParts sampleExt seg2 1).flatten.length →
          (chainParts sampleExt psT 1).flatten ≠ (chainParts sampleExt seg2 1).flatten) ∧
        (∀ (pre post : List RawBytes) (c cT : RawBytes),
          chainParts sampleExt seg2 1 = pre ++ c :: post →
          chainParts sampleExt psT 1 = pre ++ cT :: post →
          cT ≠ c →
          (chainParts sampleExt psT 1).flatten ≠ (chainParts sampleExt seg2 1).flatten) :=
  ⟨by rfl, by rfl, by decide, by decide, by decide, by rfl,
   chain_of_custody_detects sampleExt ⟨10, 0⟩ seg0 seg2 sampleSteps 1
     (by rfl) (by rfl) (by decide)⟩

/-! ## Validation -/

/-- The loop body of `Validate` at an index in range: the per-entry check
`ASEntry.Validate(prevIA, nextIA, ignoreNext)` on the neighbours in the chain,
its error wrapped with the index. -/
theorem validateBody_eq (x : Ext) (ps : PathSegment) (vm : ValidationMethod) (i : Nat)
    (hi : i < ps.ASEntries.length) :
    validateBody x ps vm i
      = some ((x.validateASEntry (ps.ASEntries[i]) (prevIAOf x ps i) (nextIAOf x ps i)
          (ignoreNextAt ps vm i)).map fun err => Error.asEntryInvalid err i) := by
  unfold validateBody prevIAOf nextIAOf iaAt
  by_cases h0 : i = 0
  · subst h0
    by_cases h1 : 0 + 1 = ps.ASEntries.length
    · have hlt : ¬ (((0 : Nat) : Int) < (ps.ASEntries.length : Int) - 1) := by omega
      simp only [gt_iff_lt, lt_self_iff_false, hlt, h1, ↓reduceIte, Option.bind_eq_bind,
        Option.some_bind, List.getElem?_eq_getElem hi, Option.pure_def]
    · have hlt : ((0 : Nat) : Int) < (ps.ASEntries.length : Int) - 1 := by omega
      have h2 : 0 + 1 < ps.ASEntries.length := by omega
      simp only [gt_iff_lt, lt_self_iff_false, hlt, h1, ↓reduceIte, Option.bind_eq_bind,
        Option.some_bind, List.getElem?_eq_getElem hi, List.getElem?_eq_getElem h2,
        Option.map_some', Option.getD_some, Option.pure_def]
  · have hp : i > 0 := by omega
    have hp1 : i - 1 < ps.ASEntries.length := by omega
    by_cases h1 : i + 1 = ps.ASEntries.length
    · have hlt : ¬ ((i : Int) < (ps.ASEntries.length : Int) - 1) := by omega
      simp only [hlt, h0, hp, h1, ↓reduceIte, Option.bind_eq_bind,
        Option.some_bind, List.getElem?_eq_getElem hi, List.getElem?_eq_getElem hp1,
        Option.map_some', Option.getD_some, Option.pure_def]
    · have hlt : (i : Int) < (ps.ASEntries.length : Int) - 1 := by omega
      have h2 : i + 1 < ps.ASEntries.length := by omega
      simp only [hlt, h0, hp, h1, ↓reduceIte, Option.bind_eq_bind,
        Option.some_bind, List.getElem?_eq_getElem hi, List.getElem?_eq_getElem hp1,
        List.getElem?_eq_getElem h2, Option.map_some', Option.getD_some, Option.pure_def]

/-- Over indices in range the loop of `Validate` never panics, and it finds no
error exactly when the per-entry check accepts at every index. -/
theorem validateLoop_iff (x : Ext) (ps : PathSegment) (vm : ValidationMethod) (l : List Nat)
    (hl : ∀ i ∈ l, i < ps.ASEntries.length) :
    (∃ r, validateLoop x ps vm l = some r) ∧
    (validateLoop x ps vm l = some none ↔
      ∀ i ∈ l, ∀ ase, ps.ASEntries[i]? = some ase →
        x.validateASEntry ase (prevIAOf x ps i) (nextIAOf x ps i) (ignoreNextAt ps vm i)
          = none) := by
  induction l with
  | nil => exact ⟨⟨none, rfl⟩, by simp [validateLoop]⟩
  | cons i rest ih =>
    have hi : i < ps.ASEntries.length := hl i (List.mem_cons_self _ _)
    obtain ⟨hex, hiff⟩ := ih (fun j hj => hl j (List.mem_cons_of_mem _ hj))
    simp only [validateLoop, validateBody_eq x ps vm i hi]
    cases hv : x.validateASEntry (ps.ASEntries[i]) (prevIAOf x ps i) (nextIAOf x ps i)
        (ignoreNextAt ps vm i) with
    | some err =>
      refine ⟨⟨_, rfl⟩, ?_⟩
      simp only [Option.map_some', List.mem_cons, forall_eq_or_imp]
      constructor
      · intro h
        cases h
      · intro h
        have := h.1 _ (List.getElem?_eq_getElem hi)
        rw [hv] at this
        cases this
    | none =>
      refine ⟨hex, ?_⟩
      simp only [Option.map_none', List.mem_cons, forall_eq_or_imp, hiff]
      constructor
      · intro h
        refine ⟨?_, h⟩
        intro ase hase
        rw [List.getElem?_eq_getElem hi] at hase
        cases hase
        exact hv
      · intro h
        exact h.2

/-- When every hop field parses, `WalkHopEntries` finds no error. -/
theorem walkEntries_none (x : Ext) (ases : List ASEntry)
    (h : ∀ ase ∈ ases, ∀ he ∈ ase.HopEntries, (x.hopField he).isOk = true) :
    walkEntries x ases = none := by
  have hops : ∀ (ase : ASEntry) (hes : List HopEntry),
      (∀ he ∈ hes, (x.hopField he).isOk = true) → walkHops x ase hes = none := by
    intro ase hes
    induction hes with
    | nil => intro _; rfl
    | cons he rest ih =>
      intro hh
      have hhe := hh he (List.mem_cons_self _ _)
      cases hhf : x.hopField he with
      | error e => simp [hhf, Except.isOk, Except.toBool] at hhe
      | ok hf =>
        simp only [walkHops, hhf]
        exact ih (fun h2 hm => hh h2 (List.mem_cons_of_mem _ hm))
  induction ases with
  | nil => rfl
  | cons ase rest ih =>
    simp only [walkEntries, hops ase ase.HopEntries (h ase (List.mem_cons_self _ _))]
    exact ih (fun a ha => h a (List.mem_cons_of_mem _ ha))

/-- The result of `Validate` after its three leading checks passed: the loop result, then
`WalkHopEntries`. -/
theorem Validate_eq_loop (x : Ext) (ps : PathSegment) (vm : ValidationMethod)
    (hsd : x.validateSData ps.SData = none)
    (hlen : ps.RawASEntries.length = ps.ASEntries.length)
    (hpos : 1 ≤ ps.ASEntries.length) :
    Validate x ps vm =
      match validateLoop x ps vm (List.range ps.ASEntries.length) with
      | none => none
      | some (some err) => some (some err)
      | some none => some (WalkHopEntries x ps) := by
  unfold Validate
  rw [hsd]
  simp only
  rw [if_neg (by omega), if_neg (by simp [hlen])]

/-- The per-entry check without `ignoreNext` accepts exactly when both recorded
neighbours match. -/
theorem ASEntry_Validate_strict (ase : ASEntry) (p n : IA) :
    ase.Validate p n false = none ↔ ase.IngressIA = p ∧ ase.EgressIA = n := by
  unfold ASEntry.Validate
  by_cases h1 : ase.IngressIA = p <;> by_cases h2 : ase.EgressIA = n <;> simp [h1, h2]

/-- The per-entry check with `ignoreNext` accepts exactly when the recorded
ingress neighbour matches. -/
theorem ASEntry_Validate_ignoreNext (ase : ASEntry) (p n : IA) :
    ase.Validate p n true = none ↔ ase.IngressIA = p := by
  unfold ASEntry.Validate
  by_cases h1 : ase.IngressIA = p <;> simp [h1]

/-- The flag `ignoreNext` is set exactly at the last index and only in Beacon mode. -/
theorem ignoreNextAt_iff (ps : PathSegment) (vm : ValidationMethod) (i : Nat) :
    ignoreNextAt ps vm i = true ↔ (i + 1 = ps.ASEntries.length ∧ vm = ValidateBeacon) := by
  unfold ignoreNextAt ValidateBeacon
  simp only [Bool.and_eq_true, decide_eq_true_eq, beq_iff_eq]
  constructor
  · rintro ⟨h1, h2⟩
    exact ⟨by omega, h2⟩
  · rintro ⟨h1, h2⟩
    exact ⟨by omega, h2⟩

/-- Success of `Validate` on a segment that passes the leading checks and
whose hop fields all parse, in terms of the per-entry check. -/
theorem Validate_ok_iff (x : Ext) (ps : PathSegment) (vm : ValidationMethod)
    (hsd : x.validateSData ps.SData = none)
    (hlen : ps.RawASEntries.length = ps.ASEntries.length)
    (hpos : 1 ≤ ps.ASEntries.length)
    (hhops : hopsParsable x ps) :
    (∃ r, Validate x ps vm = some r) ∧
    (Validate x ps vm = some none ↔
      ∀ (i : Nat) (hi : i < ps.ASEntries.length),
        x.validateASEntry (ps.ASEntries[i]) (prevIAOf x ps i) (nextIAOf x ps i)
            (ignoreNextAt ps vm i)
          = none) := by
  have hrange : ∀ i ∈ List.range ps.ASEntries.length, i < ps.ASEntries.length := by
    intro i hi
    exact List.mem_range.mp hi
  obtain ⟨⟨r, hr⟩, hiff⟩ := validateLoop_iff x ps vm _ hrange
  have hwalk : WalkHopEntries x ps = none := walkEntries_none x ps.ASEntries hhops
  rw [Validate_eq_loop x ps vm hsd hlen hpos, hwalk]
  have hall : (∀ i ∈ List.range ps.ASEntries.length, ∀ ase, ps.ASEntries[i]? = some ase →
        x.validateASEntry ase (prevIAOf x ps i) (nextIAOf x ps i) (ignoreNextAt ps vm i)
          = none) ↔
      ∀ (i : Nat) (hi : i < ps.ASEntries.length),
        x.validateASEntry (ps.ASEntries[i]) (prevIAOf x ps i) (nextIAOf x ps i)
            (ignoreNextAt ps vm i)
          = none := by
    constructor
    · intro h i hi
      exact h i (List.mem_range.mpr hi) _ (List.getElem?_eq_getElem hi)
    · intro h i hi ase hase
      have hi2 := List.mem_range.mp hi
      rw [List.getElem?_eq_getElem hi2] at hase
      cases hase
      exact h i hi2
  rw [← hall, ← hiff, hr]
  cases r with
  | none => exact ⟨⟨_, rfl⟩, by simp⟩
  | some err => exact ⟨⟨_, rfl⟩, by simp⟩

/-- C6. Segment mode, with the per-entry check being `ASEntry.Validate` as
section 4.1 specifies it: for a segment with valid `SData`, equally many (at
least one) raw and parsed AS entries and all hop fields parsable,
`Validate(ValidateSegment)` returns (no panic), and it succeeds if and only if
at every index `i` the entry's recorded ingress neighbour is the IA of entry
`i - 1` (zero IA for `i = 0`) and its recorded egress neighbour is the IA of
entry `i + 1` (zero IA for the last index). The check made at index `i` is
`ASEntry.Validate(prevIA, nextIA, false)`, its error wrapped with `i`. -/
theorem Validate_segment_iff (x : Ext) (ps : PathSegment)
    (hcheck : x.validateASEntry = ASEntry.Validate)
    (hsd : x.validateSData ps.SData = none)
    (hlen : ps.RawASEntries.length = ps.ASEntries.length)
    (hpos : 1 ≤ ps.ASEntries.length)
    (hhops : hopsParsable x ps) :
    (∃ r, Validate x ps ValidateSegment = some r) ∧
    (Validate x ps ValidateSegment = some none ↔
      ∀ (i : Nat) (hi : i < ps.ASEntries.length),
        (ps.ASEntries[i]).IngressIA = prevIAOf x ps i ∧
        (ps.ASEntries[i]).EgressIA = nextIAOf x ps i) ∧
    (∀ (i : Nat) (hi : i < ps.ASEntries.length),
      validateBody x ps ValidateSegment i
        = some (((ps.ASEntries[i]).Validate (prevIAOf x ps i) (nextIAOf x ps i) false).map
            fun err => Error.asEntryInvalid err i)) := by
  have hign : ∀ i, ignoreNextAt ps ValidateSegment i = false := by
    intro i
    cases h : ignoreNextAt ps ValidateSegment i with
    | false => rfl
    | true =>
      have := ((ignoreNextAt_iff ps ValidateSegment i).mp h).2
      cases this
  obtain ⟨hex, hiff⟩ := Validate_ok_iff x ps ValidateSegment hsd hlen hpos hhops
  rw [hcheck] at hiff
  refine ⟨hex, ?_, ?_⟩
  · rw [hiff]
    constructor
    · intro h i hi
      have := h i hi
      rw [hign i] at this
      exact (ASEntry_Validate_strict _ _ _).mp this
    · intro h i hi
      rw [hign i]
      exact (ASEntry_Validate_strict _ _ _).mpr (h i hi)
  · intro i hi
    rw [validateBody_eq x ps ValidateSegment i hi, hign i, hcheck]

example : Validate sampleExt seg2 ValidateSegment = some none := by rfl
example : Validate sampleExt seg1 ValidateSegment
    = some (some (Error.asEntryInvalid Error.egressMismatch 0)) := by rfl
example : Validate sampleExt seg1 ValidateBeacon = some none := by rfl
example : Validate sampleExt seg0 ValidateBeacon = some (some Error.noASEntries) := by rfl

/-- Witness for C6: the two-entry segment `seg2`. -/
theorem Validate_segment_iff_witness :
    sampleExt.validateASEntry = ASEntry.Validate ∧
    sampleExt.validateSData seg2.SData = none ∧
    seg2.RawASEntries.length = seg2.ASEntries.length ∧
    1 ≤ seg2.ASEntries.length ∧
    hopsParsable sampleExt seg2 ∧
    ((∃ r, Validate sampleExt seg2 ValidateSegment = some r) ∧
    (Validate sampleExt seg2 ValidateSegment = some none ↔
      ∀ (i : Nat) (hi : i < seg2.ASEntries.length),
        (seg2.ASEntries.get ⟨i, hi⟩).IngressIA = prevIAOf sampleExt seg2 i ∧
        (seg2.ASEntries.get ⟨i, hi⟩).EgressIA = nextIAOf sampleExt seg2 i) ∧
    (∀ (i : Nat) (hi : i < seg2.ASEntries.length),
      validateBody sampleExt seg2 ValidateSegment i
        = some (((seg2.ASEntries.get ⟨i, hi⟩).Validate (prevIAOf sampleExt seg2 i)
            (nextIAOf sampleExt seg2 i) false).map
            fun err => Error.asEntryInvalid err i))) :=
  ⟨by rfl, by rfl, by rfl, by decide, by decide,
   Validate_segment_iff sampleExt seg2 (by rfl) (by rfl) (by rfl) (by decide) (by decide)⟩

/-- The loop of `Validate` is determined by its body at the indices visited. -/
theorem validateLoop_congr (x : Ext) (ps ps1 : PathSegment) (vm : ValidationMethod)
    (l : List Nat) (h : ∀ i ∈ l, validateBody x ps1 vm i = validateBody x ps vm i) :
    validateLoop x ps1 vm l = validateLoop x ps vm l := by
  induction l with
  | nil => rfl
  | cons i rest ih =>
    simp only [validateLoop, h i (List.mem_cons_self _ _)]
    rw [ih (fun j hj => h j (List.mem_cons_of_mem _ hj))]

/-- Segments that agree up to the last egress neighbour have the same chain of
IAs. -/
theorem iaAt_congr (x : Ext) (ps ps1 : PathSegment) (h : sameButLastEgress ps ps1) (j : Nat) :
    iaAt x ps1 j = iaAt x ps j := by
  obtain ⟨-, -, hl, hall⟩ := h
  unfold iaAt
  by_cases hj : j < ps.ASEntries.length
  · have hj1 : j < ps1.ASEntries.length := by omega
    have := (hall j _ _ (List.getElem?_eq_getElem hj) (List.getElem?_eq_getElem hj1)).1
    simp [List.getElem?_eq_getElem hj, List.getElem?_eq_getElem hj1, ASEntry.IA, this]
  · have hj1 : ¬ j < ps1.ASEntries.length := by omega
    simp [List.getElem?_eq_none (not_lt.mp hj), List.getElem?_eq_none (not_lt.mp hj1)]

/-- In Beacon mode the loop body of `Validate` does not see the egress
neighbour recorded in the last entry. -/
theorem validateBody_beacon_congr (x : Ext) (ps ps1 : PathSegment)
    (hcheck : x.validateASEntry = ASEntry.Validate)
    (h : sameButLastEgress ps ps1) (i : Nat) (hi : i < ps.ASEntries.length) :
    validateBody x ps1 ValidateBeacon i = validateBody x ps ValidateBeacon i := by
  have hia := iaAt_congr x ps ps1 h
  obtain ⟨-, -, hl, hall⟩ := h
  have hi1 : i < ps1.ASEntries.length := by omega
  rw [validateBody_eq x ps ValidateBeacon i hi, validateBody_eq x ps1 ValidateBeacon i hi1]
  have hprev : prevIAOf x ps1 i = prevIAOf x ps i := by
    unfold prevIAOf
    rw [hia]
  have hnext : nextIAOf x ps1 i = nextIAOf x ps i := by
    unfold nextIAOf
    rw [hia, hl]
  have hign : ignoreNextAt ps1 ValidateBeacon i = ignoreNextAt ps ValidateBeacon i := by
    unfold ignoreNextAt
    rw [hl]
  obtain ⟨-, -, hin, hout⟩ :=
    hall i _ _ (List.getElem?_eq_getElem hi) (List.getElem?_eq_getElem hi1)
  rw [hprev, hnext, hign, hcheck]
  congr 2
  by_cases hlast : i + 1 = ps.ASEntries.length
  · have : ignoreNextAt ps ValidateBeacon i = true :=
      (ignoreNextAt_iff ps ValidateBeacon i).mpr ⟨hlast, rfl⟩
    rw [this]
    unfold ASEntry.Validate
    rw [hin]
    rfl
  · have := hout (by omega)
    unfold ASEntry.Validate
    rw [hin, this]

/-- C7. Beacon mode, with the per-entry check being `ASEntry.Validate` as
section 4.1 specifies it: for a segment with valid `SData`, equally many (at
least one) raw and parsed AS entries and all hop fields parsable,
`Validate(ValidateBeacon)` returns (no panic), and it succeeds if and only if
at every index the recorded ingress neighbour is the IA of the previous entry
(zero IA at index 0) and, at every index but the last, the recorded egress
neighbour is the IA of the next entry. `ignoreNext` is true exactly at the last
index and only in Beacon mode. The result is the same on every segment that
differs only in the egress neighbour recorded in the last entry. -/
theorem Validate_beacon_iff (x : Ext) (ps : PathSegment)
    (hcheck : x.validateASEntry = ASEntry.Validate)
    (hsd : x.validateSData ps.SData = none)
    (hlen : ps.RawASEntries.length = ps.ASEntries.length)
    (hpos : 1 ≤ ps.ASEntries.length)
    (hhops : hopsParsable x ps) :
    (∃ r, Validate x ps ValidateBeacon = some r) ∧
    (Validate x ps ValidateBeacon = some none ↔
      ∀ (i : Nat) (hi : i < ps.ASEntries.length),
        (ps.ASEntries[i]).IngressIA = prevIAOf x ps i ∧
        (i + 1 < ps.ASEntries.length → (ps.ASEntries[i]).EgressIA = nextIAOf x ps i)) ∧
    (∀ (vm : ValidationMethod) (i : Nat),
      ignoreNextAt ps vm i = true ↔ (i + 1 = ps.ASEntries.length ∧ vm = ValidateBeacon)) ∧
    (∀ ps1 : PathSegment, sameButLastEgress ps ps1 →
      Validate x ps1 ValidateBeacon = Validate x ps ValidateBeacon) := by
  obtain ⟨hex, hiff⟩ := Validate_ok_iff x ps ValidateBeacon hsd hlen hpos hhops
  rw [hcheck] at hiff
  refine ⟨hex, ?_, ignoreNextAt_iff ps, ?_⟩
  · rw [hiff]
    constructor
    · intro h i hi
      have hv := h i hi
      by_cases hlast : i + 1 = ps.ASEntries.length
      · rw [(ignoreNextAt_iff ps ValidateBeacon i).mpr ⟨hlast, rfl⟩] at hv
        exact ⟨(ASEntry_Validate_ignoreNext _ _ _).mp hv, fun hlt => absurd hlast (by omega)⟩
      · have hf : ignoreNextAt ps ValidateBeacon i = false := by
          cases hc : ignoreNextAt ps ValidateBeacon i with
          | false => rfl
          | true => exact absurd ((ignoreNextAt_iff ps ValidateBeacon i).mp hc).1 hlast
        rw [hf] at hv
        have := (ASEntry_Validate_strict _ _ _).mp hv
        exact ⟨this.1, fun _ => this.2⟩
    · intro h i hi
      obtain ⟨hin, hout⟩ := h i hi
      by_cases hlast : i + 1 = ps.ASEntries.length
      · rw [(ignoreNextAt_iff ps ValidateBeacon i).mpr ⟨hlast, rfl⟩]
        exact (ASEntry_Validate_ignoreNext _ _ _).mpr hin
      · have hf : ignoreNextAt ps ValidateBeacon i = false := by
          cases hc : ignoreNextAt ps ValidateBeacon i with
          | false => rfl
          | true => exact absurd ((ignoreNextAt_iff ps ValidateBeacon i).mp hc).1 hlast
        rw [hf]
        exact (ASEntry_Validate_strict _ _ _).mpr ⟨hin, hout (by omega)⟩
  · intro ps1 hsame
    have hsame2 := hsame
    obtain ⟨hsd1, hraw1, hl1, hall⟩ := hsame2
    have hhops1 : hopsParsable x ps1 := by
      intro ase1 hmem he hhe
      obtain ⟨i, hi1, hget⟩ := List.getElem_of_mem hmem
      have hi : i < ps.ASEntries.length := by omega
      have hh := (hall i _ _ (List.getElem?_eq_getElem hi) (List.getElem?_eq_getElem hi1)).2.1
      rw [hget] at hh
      rw [hh] at hhe
      exact hhops _ (List.getElem_mem hi) he hhe
    rw [Validate_eq_loop x ps ValidateBeacon hsd hlen hpos,
      Validate_eq_loop x ps1 ValidateBeacon (by rw [hsd1]; exact hsd) (by omega) (by omega)]
    have hw : WalkHopEntries x ps = none := walkEntries_none x ps.ASEntries hhops
    have hw1 : WalkHopEntries x ps1 = none := walkEntries_none x ps1.ASEntries hhops1
    rw [hw, hw1, hl1]
    rw [validateLoop_congr x ps ps1 ValidateBeacon _
      (fun i hi => validateBody_beacon_congr x ps ps1 hcheck hsame i (List.mem_range.mp hi))]

/-- Witness for C7: the one-entry segment `seg1`, whose only entry records the
egress neighbour AS 2, although no entry follows. -/
theorem Validate_beacon_iff_witness :
    sampleExt.validateASEntry = ASEntry.Validate ∧
    sampleExt.validateSData seg1.SData = none ∧
    seg1.RawASEntries.length = seg1.ASEntries.length ∧
    1 ≤ seg1.ASEntries.length ∧
    hopsParsable sampleExt seg1 ∧
    Validate sampleExt seg1 ValidateBeacon = some none ∧
    Validate sampleExt seg1Other ValidateBeacon = some none ∧
    ((∃ r, Validate sampleExt seg1 ValidateBeacon = some r) ∧
    (Validate sampleExt seg1 ValidateBeacon = some none ↔
      ∀ (i : Nat) (hi : i < seg1.ASEntries.length),
        (seg1.ASEntries.get ⟨i, hi⟩).IngressIA = prevIAOf sampleExt seg1 i ∧
        (i + 1 < seg1.ASEntries.length →
          (seg1.ASEntries.get ⟨i, hi⟩).EgressIA = nextIAOf sampleExt seg1 i)) ∧
    (∀ (vm : ValidationMethod) (i : Nat),
      ignoreNextAt seg1 vm i = true ↔ (i + 1 = seg1.ASEntries.length ∧ vm = ValidateBeacon)) ∧
    (∀ ps1 : PathSegment, sameButLastEgress seg1 ps1 →
      Validate sampleExt ps1 ValidateBeacon = Validate sampleExt seg1 ValidateBeacon)) :=
  ⟨by rfl, by rfl, by rfl, by decide, by decide, by rfl, by rfl,
   Validate_beacon_iff sampleExt seg1 (by rfl) (by rfl) (by rfl) (by decide) (by decide)⟩

/-- C8. In both modes `Validate` returns an error when there is no raw AS entry
or when the numbers of raw and parsed AS entries differ. Hence, when `Validate`
succeeds, the two numbers are equal and at least 1, and `FirstIA` and `LastIA`
index in range. -/
theorem Validate_rejects_bad_counts (x : Ext) (ps : PathSegment) (vm : ValidationMethod) :
    ((ps.RawASEntries.length = 0 ∨ ps.ASEntries.length ≠ ps.RawASEntries.length) →
      ∃ err, Validate x ps vm = some (some err)) ∧
    (Validate x ps vm = some none →
      ps.RawASEntries.length = ps.ASEntries.length ∧ 1 ≤ ps.ASEntries.length ∧
      (∃ ia, FirstIA x ps = some ia) ∧ (∃ ia, LastIA x ps = some ia)) := by
  constructor
  · intro h
    unfold Validate
    cases hsd : x.validateSData ps.SData with
    | some err => exact ⟨err, rfl⟩
    | none =>
      simp only
      by_cases h0 : ps.RawASEntries.length = 0
      · rw [if_pos h0]
        exact ⟨_, rfl⟩
      · rw [if_neg h0]
        have h1 : ps.ASEntries.length ≠ ps.RawASEntries.length := by
          rcases h with h | h
          · exact absurd h h0
          · exact h
        rw [if_pos h1]
        exact ⟨_, rfl⟩
  · intro h
    unfold Validate at h
    cases hsd : x.validateSData ps.SData with
    | some err => simp [hsd] at h
    | none =>
      simp only [hsd] at h
      by_cases h0 : ps.RawASEntries.length = 0
      · simp [h0] at h
      · rw [if_neg h0] at h
        by_cases h1 : ps.ASEntries.length ≠ ps.RawASEntries.length
        · simp [h1] at h
        · have heq : ps.ASEntries.length = ps.RawASEntries.length := not_not.mp h1
          have hpos : 0 < ps.ASEntries.length := by omega
          refine ⟨heq.symm, hpos, ?_, ?_⟩
          · unfold FirstIA
            rw [List.getElem?_eq_getElem hpos]
            exact ⟨_, rfl⟩
          · have hlast : ((ps.ASEntries.length : Int) - 1).toNat < ps.ASEntries.length := by
              omega
            unfold LastIA
            rw [if_neg (by omega), List.getElem?_eq_getElem hlast]
            exact ⟨_, rfl⟩

/-- Witness for C8: the empty segment `seg0` and the segment `segMismatch` are
rejected; the validated two-entry segment `seg2` has matching counts. -/
theorem Validate_rejects_bad_counts_witness :
    (seg0.RawASEntries.length = 0 ∧
      ∃ err, Validate sampleExt seg0 ValidateSegment = some (some err)) ∧
    (segMismatch.ASEntries.length ≠ segMismatch.RawASEntries.length ∧
      ∃ err, Validate sampleExt segMismatch ValidateBeacon = some (some err)) ∧
    (Validate sampleExt seg2 ValidateSegment = some none ∧
      seg2.RawASEntries.length = seg2.ASEntries.length ∧ 1 ≤ seg2.ASEntries.length ∧
      (∃ ia, FirstIA sampleExt seg2 = some ia) ∧ (∃ ia, LastIA sampleExt seg2 = some ia)) :=
  ⟨⟨by rfl, (Validate_rejects_bad_counts sampleExt seg0 ValidateSegment).1 (Or.inl (by rfl))⟩,
   ⟨by decide,
    (Validate_rejects_bad_counts sampleExt segMismatch ValidateBeacon).1 (Or.inr (by decide))⟩,
   ⟨by rfl, (Validate_rejects_bad_counts sampleExt seg2 ValidateSegment).2 (by rfl)⟩⟩

/-! ## Unparsable hop fields -/

/-- The inner loop of `WalkHopEntries` reports the first parse error of the
entry, wrapped with the entry. -/
theorem walkHops_eq (x : Ext) (ase : ASEntry) (hes : List HopEntry) :
    walkHops x ase hes
      = (hes.findSome? (hopError x)).map fun err => Error.invalidHopField err ase := by
  induction hes with
  | nil => rfl
  | cons he rest ih =>
    simp only [walkHops, List.findSome?_cons, hopError]
    cases x.hopField he with
    | error e => rfl
    | ok hf => exact ih

/-- The outer loop of `WalkHopEntries` reports the first entry with an
unparsable hop. -/
theorem walkEntries_eq (x : Ext) (ases : List ASEntry) (n : Nat) :
    walkEntries x ases
      = ((ases.enumFrom n).findSome? fun p =>
          (firstHopError x p.2).map fun err => (p.1, p.2, err)).map
        fun r => Error.invalidHopField r.2.2 r.2.1 := by
  induction ases generalizing n with
  | nil => rfl
  | cons ase rest ih =>
    simp only [walkEntries, List.enumFrom_cons, List.findSome?_cons, walkHops_eq,
      firstHopError]
    cases List.findSome? (hopError x) ase.HopEntries with
    | some e => rfl
    | none => exact ih (n + 1)

/-- A chain with an unparsable hop has a first bad entry, which sits at the
reported index. -/
theorem firstBad_exists (x : Ext) (ases : List ASEntry) (n : Nat)
    (h : ¬ ∀ ase ∈ ases, ∀ he ∈ ase.HopEntries, (x.hopField he).isOk = true) :
    ∃ idx ase cause,
      ((ases.enumFrom n).findSome? fun p =>
          (firstHopError x p.2).map fun err => (p.1, p.2, err)) = some (idx, ase, cause) ∧
      n ≤ idx ∧ ases[idx - n]? = some ase ∧ firstHopError x ase = some cause := by
  induction ases generalizing n with
  | nil => exact absurd (by simp) h
  | cons a rest ih =>
    simp only [List.enumFrom_cons, List.findSome?_cons]
    cases hf : firstHopError x a with
    | some e =>
      exact ⟨n, a, e, rfl, le_refl _, by simp, hf⟩
    | none =>
      have hrest : ¬ ∀ ase ∈ rest, ∀ he ∈ ase.HopEntries, (x.hopField he).isOk = true := by
        intro hall
        apply h
        intro ase hmem he hhe
        rcases List.mem_cons.mp hmem with rfl | hm
        · unfold firstHopError at hf
          have := List.findSome?_eq_none_iff.mp hf he hhe
          unfold hopError at this
          cases hx : x.hopField he with
          | error e => simp [hx] at this
          | ok v => rfl
        · exact hall ase hm he hhe
      obtain ⟨idx, ase, cause, h1, h2, h3, h4⟩ := ih (n + 1) hrest
      refine ⟨idx, ase, cause, h1, by omega, ?_, h4⟩
      have : idx - n = (idx - (n + 1)) + 1 := by omega
      rw [this]
      simpa using h3

example : growSeg sampleExt seg0 [(aseA, okSigner), (aseBad, okSigner)] = some segBad1 := by
  rfl
example : firstBadEntry sampleExt segBad1.ASEntries = some (1, aseBad, Error.foreign 4) := by
  rfl

/-- C9 as stated fails: the error `Validate` returns for an unparsable hop
field carries the offending AS entry (`"asEntry", asEntry`), not its index.
The linked segments `segBad1` and `segBad2` pass the `SData`, count and
linkage checks, their first unparsable hop sits in the AS entry at index 1 and
at index 2 respectively, and `Validate` returns the very same error for both;
so no function of the error yields the index of the offending entry. -/
theorem Validate_hop_error_counterexample :
    Validate sampleExt segBad1 ValidateSegment
      = some (some (Error.invalidHopField (Error.foreign 4) aseBad)) ∧
    Validate sampleExt segBad2 ValidateSegment
      = some (some (Error.invalidHopField (Error.foreign 4) aseBad)) ∧
    firstBadEntry sampleExt segBad1.ASEntries = some (1, aseBad, Error.foreign 4) ∧
    firstBadEntry sampleExt segBad2.ASEntries = some (2, aseBad, Error.foreign 4) ∧
    validateLoop sampleExt segBad1 ValidateSegment (List.range segBad1.ASEntries.length)
      = some none ∧
    validateLoop sampleExt segBad2 ValidateSegment (List.range segBad2.ASEntries.length)
      = some none ∧
    ¬ ∃ idxOf : Error → Nat, ∀ ps ∈ [segBad1, segBad2],
        ∃ err, Validate sampleExt ps ValidateSegment = some (some err) ∧
          (firstBadEntry sampleExt ps.ASEntries).map (fun r => r.1) = some (idxOf err) := by
  have h1 : Validate sampleExt segBad1 ValidateSegment
      = some (some (Error.invalidHopField (Error.foreign 4) aseBad)) := by rfl
  have h2 : Validate sampleExt segBad2 ValidateSegment
      = some (some (Error.invalidHopField (Error.foreign 4) aseBad)) := by rfl
  have f1 : firstBadEntry sampleExt segBad1.ASEntries = some (1, aseBad, Error.foreign 4) := by
    rfl
  have f2 : firstBadEntry sampleExt segBad2.ASEntries = some (2, aseBad, Error.foreign 4) := by
    rfl
  refine ⟨h1, h2, f1, f2, by rfl, by rfl, ?_⟩
  rintro ⟨idxOf, hall⟩
  obtain ⟨e1, he1, hi1⟩ := hall segBad1 (by simp)
  obtain ⟨e2, he2, hi2⟩ := hall segBad2 (by simp)
  rw [h1] at he1
  rw [h2] at he2
  rw [f1] at hi1
  rw [f2] at hi2
  simp only [Option.some.injEq] at he1 he2
  subst he1
  subst he2
  simp only [Option.map_some', Option.some.injEq] at hi1 hi2
  omega

/-- C9, amended. For a segment that passes the `SData`, non-empty, count and
per-entry linkage checks (in the given mode) but has a hop entry whose hop
field does not parse, `Validate` fails with the error of `WalkHopEntries`: it
wraps the parse error `cause` of the first unparsable hop entry (in AS-entry
order, then hop order) and carries the offending AS entry itself, which is the
entry at the first bad index. -/
theorem Validate_unparsable_hop (x : Ext) (ps : PathSegment) (vm : ValidationMethod)
    (hsd : x.validateSData ps.SData = none)
    (hpos : ps.RawASEntries.length ≠ 0)
    (hlen : ps.ASEntries.length = ps.RawASEntries.length)
    (hlink : ∀ (i : Nat) (hi : i < ps.ASEntries.length),
      x.validateASEntry (ps.ASEntries[i]) (prevIAOf x ps i) (nextIAOf x ps i)
          (ignoreNextAt ps vm i)
        = none)
    (hbad : ¬ hopsParsable x ps) :
    ∃ idx ase cause,
      firstBadEntry x ps.ASEntries = some (idx, ase, cause) ∧
      ps.ASEntries[idx]? = some ase ∧
      firstHopError x ase = some cause ∧
      Validate x ps vm = some (some (Error.invalidHopField cause ase)) := by
  obtain ⟨idx, ase, cause, hfirst, -, hget, hcause⟩ := firstBad_exists x ps.ASEntries 0 hbad
  refine ⟨idx, ase, cause, hfirst, by simpa using hget, hcause, ?_⟩
  have hloop : validateLoop x ps vm (List.range ps.ASEntries.length) = some none := by
    refine (validateLoop_iff x ps vm _ (fun i hi => List.mem_range.mp hi)).2.mpr ?_
    intro i hi a ha
    have hi2 := List.mem_range.mp hi
    rw [List.getElem?_eq_getElem hi2] at ha
    cases ha
    exact hlink i hi2
  rw [Validate_eq_loop x ps vm hsd hlen.symm (by omega), hloop]
  simp only [WalkHopEntries]
  rw [walkEntries_eq x ps.ASEntries 0]
  rw [hfirst]
  rfl

/-- Witness for C9 (amended): the segment `segBad1` in Segment mode. -/
theorem Validate_unparsable_hop_witness :
    sampleExt.validateSData segBad1.SData = none ∧
    segBad1.RawASEntries.length ≠ 0 ∧
    segBad1.ASEntries.length = segBad1.RawASEntries.length ∧
    (∀ (i : Nat) (hi : i < segBad1.ASEntries.length),
      sampleExt.validateASEntry (segBad1.ASEntries.get ⟨i, hi⟩) (prevIAOf sampleExt segBad1 i)
        (nextIAOf sampleExt segBad1 i) (ignoreNextAt segBad1 ValidateSegment i) = none) ∧
    ¬ hopsParsable sampleExt segBad1 ∧
    ∃ idx ase cause,
      firstBadEntry sampleExt segBad1.ASEntries = some (idx, ase, cause) ∧
      segBad1.ASEntries[idx]? = some ase ∧
      firstHopError sampleExt ase = some cause ∧
      Validate sampleExt segBad1 ValidateSegment
        = some (some (Error.invalidHopField cause ase)) :=
  have hlink : ∀ (i : Nat) (hi : i < segBad1.ASEntries.length),
      sampleExt.validateASEntry (segBad1.ASEntries.get ⟨i, hi⟩) (prevIAOf sampleExt segBad1 i)
        (nextIAOf sampleExt segBad1 i) (ignoreNextAt segBad1 ValidateSegment i) = none := by
    intro i hi
    have h2 : i < 2 := hi
    interval_cases i <;> rfl
  ⟨by rfl, by decide, by rfl, hlink, by decide,
   Validate_unparsable_hop sampleExt segBad1 ValidateSegment (by rfl) (by decide) (by rfl)
     hlink (by decide)⟩

/-! ## Content hashes -/

/-- With `hopOnly` the inner loop of `calculateHash` reads the first hop entry
only. -/
theorem hashHops_hopOnly (x : Ext) (h : RawBytes) (hes : List HopEntry) :
    hashHops x true h hes =
      match hes.head? with
      | none => .ok h
      | some hopE =>
        match x.hopField hopE with
        | .error err => .error err
        | .ok hopf =>
          .ok (h ++ x.orderBytesIFID hopf.ConsIngress ++ x.orderBytesIFID hopf.ConsEgress) := by
  cases hes with
  | nil => rfl
  | cons he rest =>
    simp only [hashHops, List.head?_cons]
    cases x.hopField he with
    | error e => rfl
    | ok hf => rfl

/-- With `hopOnly` the bytes fed to the hash depend only on the AS identity and
the first hop entry of every AS entry. -/
theorem hashEntries_hopOnly_congr (x : Ext) (h : RawBytes) (l1 l2 : List ASEntry)
    (hmap : l1.map (fun a => (a.RawIA, a.HopEntries.head?))
      = l2.map (fun a => (a.RawIA, a.HopEntries.head?))) :
    hashEntries x true h l1 = hashEntries x true h l2 := by
  induction l1 generalizing l2 h with
  | nil =>
    cases l2 with
    | nil => rfl
    | cons b l2 => simp at hmap
  | cons a l1 ih =>
    cases l2 with
    | nil => simp at hmap
    | cons b l2 =>
      simp only [List.map_cons, List.cons.injEq, Prod.mk.injEq] at hmap
      obtain ⟨⟨hia, hhead⟩, hrest⟩ := hmap
      simp only [hashEntries, hashHops_hopOnly, hia, hhead]
      cases hh : (match b.HopEntries.head? with
        | none => Except.ok (h ++ x.orderBytesIA b.RawIA)
        | some hopE =>
          match x.hopField hopE with
          | .error err => .error err
          | .ok hopf =>
            .ok (h ++ x.orderBytesIA b.RawIA ++ x.orderBytesIFID hopf.ConsIngress
              ++ x.orderBytesIFID hopf.ConsEgress)) with
      | error e => rfl
      | ok h1 => exact ih h1 l2 hrest

/-- Two chains of the same length that agree index by index on a projection
have the same list of projections. -/
theorem map_eq_of_index {α β : Type} (f : α → β) (l1 l2 : List α)
    (hlen : l1.length = l2.length)
    (h : ∀ (i : Nat) (h1 : i < l1.length) (h2 : i < l2.length), f l1[i] = f l2[i]) :
    l1.map f = l2.map f := by
  apply List.ext_getElem
  · simp [hlen]
  · intro i h1 h2
    simp only [List.length_map] at h1 h2
    simp only [List.getElem_map]
    exact h i h1 h2

/-- C10. `ID()` ignores peering hop entries: two segments with empty id caches
whose parsed chains have the same length and, at every index, the same AS
identity (`RawIA`) and the same first hop entry (or both none) give the same
`ID()` result (the same hash, or the same error), whatever their hop entries at
positions 1 and above are, parsable or not; and `ID()` leaves the same value in
the id cache of both. -/
theorem ID_ignores_peering (x : Ext) (ps ps1 : PathSegment)
    (hid : ps.id = none) (hid1 : ps1.id = none)
    (hlen : ps.ASEntries.length = ps1.ASEntries.length)
    (hsame : ∀ (i : Nat) (h1 : i < ps.ASEntries.length) (h2 : i < ps1.ASEntries.length),
      (ps.ASEntries[i]).RawIA = (ps1.ASEntries[i]).RawIA ∧
      (ps.ASEntries[i]).HopEntries.head? = (ps1.ASEntries[i]).HopEntries.head?) :
    (ID x ps).1 = (ID x ps1).1 ∧ (ID x ps).2.id = (ID x ps1).2.id := by
  have hmap : ps.ASEntries.map (fun a => (a.RawIA, a.HopEntries.head?))
      = ps1.ASEntries.map (fun a => (a.RawIA, a.HopEntries.head?)) := by
    apply map_eq_of_index _ _ _ hlen
    intro i h1 h2
    obtain ⟨ha, hb⟩ := hsame i h1 h2
    rw [ha, hb]
  have hhash : calculateHash x ps true = calculateHash x ps1 true := by
    unfold calculateHash
    rw [hashEntries_hopOnly_congr x [] _ _ hmap]
  unfold ID
  rw [hid, hid1, hhash]
  cases calculateHash x ps1 true with
  | error e => exact ⟨rfl, by simp [hid, hid1]⟩
  | ok v => exact ⟨rfl, rfl⟩

example : (ID sampleExt seg2).1 = .ok [1, 0, 5, 2, 6, 0] := by rfl
example : (ID sampleExt segBad1).1 = .ok [1, 0, 5, 2, 6, 0] := by rfl
example : (FullId sampleExt seg2).1 = .ok [1, 0, 5, 2, 6, 0] := by rfl
example : (FullId sampleExt segBad1).1 = .error (Error.foreign 4) := by rfl

/-- Witness for C10: `seg2` and `segBad1` differ in an unparsable peering hop
entry of their second AS entry. -/
theorem ID_ignores_peering_witness :
    seg2.id = none ∧ segBad1.id = none ∧
    seg2.ASEntries.length = segBad1.ASEntries.length ∧
    (∀ (i : Nat) (h1 : i < seg2.ASEntries.length) (h2 : i < segBad1.ASEntries.length),
      (seg2.ASEntries.get ⟨i, h1⟩).RawIA = (segBad1.ASEntries.get ⟨i, h2⟩).RawIA ∧
      (seg2.ASEntries.get ⟨i, h1⟩).HopEntries.head?
        = (segBad1.ASEntries.get ⟨i, h2⟩).HopEntries.head?) ∧
    seg2.ASEntries ≠ segBad1.ASEntries ∧
    ((ID sampleExt seg2).1 = (ID sampleExt segBad1).1 ∧
      (ID sampleExt seg2).2.id = (ID sampleExt segBad1).2.id) :=
  have hsame : ∀ (i : Nat) (h1 : i < seg2.ASEntries.length)
      (h2 : i < segBad1.ASEntries.length),
      (seg2.ASEntries.get ⟨i, h1⟩).RawIA = (segBad1.ASEntries.get ⟨i, h2⟩).RawIA ∧
      (seg2.ASEntries.get ⟨i, h1⟩).HopEntries.head?
        = (segBad1.ASEntries.get ⟨i, h2⟩).HopEntries.head? := by
    intro i h1 h2
    have h3 : i < 2 := h1
    interval_cases i <;> exact ⟨rfl, rfl⟩
  ⟨by rfl, by rfl, by rfl, hsame, by decide,
   ID_ignores_peering sampleExt seg2 segBad1 (by rfl) (by rfl) (by rfl) hsame⟩

/-! ## Rebuilding from raw data -/

example : growSeg codecExt seg0 sampleSteps = some segC2 := by rfl
example : PathSegment.Pack codecExt segC2
    = .ok [2, 10, 0, 8, 1, 0, 0, 0, 2, 100, 0, 5, 1, 7, 1, 8,
        8, 2, 0, 1, 0, 0, 50, 6, 0, 1, 7, 1, 8] := by rfl
example : NewSegFromRaw codecExt [2, 10, 0, 8, 1, 0, 0, 0, 2, 100, 0, 5, 1, 7, 1, 8,
        8, 2, 0, 1, 0, 0, 50, 6, 0, 1, 7, 1, 8] = some (some segC2, none) := by rfl
example : ParseRaw sampleExt segStale ValidateBeacon = some (some segStaleParsed, none) := by
  rfl
example : MaxExpiry sampleExt seg2 = some (10 * 1000000000 + 101 * 337 * 1000000000) := by rfl
example : MinExpiry sampleExt seg2 = some (10 * 1000000000 + 51 * 337 * 1000000000) := by rfl
example : MinExpiry sampleExt seg0 = some (10 * 1000000000 + 86400 * 1000000000) := by rfl
example : MaxExpiry sampleExt segBad1 = none := by rfl
example : ContainsInterface sampleExt seg2 ⟨0, 2⟩ 6 = some true := by rfl
example : ContainsInterface sampleExt seg2 ⟨0, 2⟩ 5 = some false := by rfl

/-! ## Cached ids -/

/-- With an empty id cache `ID()` returns the hash over the current chain. -/
theorem ID_of_empty_cache (x : Ext) (ps : PathSegment) (h : ps.id = none) :
    (ID x ps).1 = calculateHash x ps true := by
  unfold ID
  rw [h]
  cases calculateHash x ps true <;> rfl

/-- With an empty full id cache `FullId()` returns the hash over the current
chain. -/
theorem FullId_of_empty_cache (x : Ext) (ps : PathSegment) (h : ps.fullId = none) :
    (FullId x ps).1 = calculateHash x ps false := by
  unfold FullId
  rw [h]
  cases calculateHash x ps false <;> rfl

/-- A segment returned by `ParseRaw` has the caches of the segment it was
called on. -/
theorem ParseRaw_keeps_caches (x : Ext) (ps ps1 : PathSegment) (vm : ValidationMethod)
    (err : Option Error) (h : ParseRaw x ps vm = some (some ps1, err)) :
    ps1.id = ps.id ∧ ps1.fullId = ps.fullId ∧ ps1.RawSData = ps.RawSData ∧
    ps1.RawASEntries = ps.RawASEntries ∧
    x.parseSData ps.RawSData = .ok (ps1.SData.getD ⟨[]⟩) ∧ ps1.SData.isSome = true ∧
    parseEntries x ps.RawASEntries = .ok ps1.ASEntries ∧
    Validate x ps1 vm = some err := by
  unfold ParseRaw at h
  cases hsd : x.parseSData ps.RawSData with
  | error e => simp [hsd] at h
  | ok sd =>
    simp only [hsd] at h
    cases hpe : parseEntries x ps.RawASEntries with
    | error e => simp [hpe] at h
    | ok ases =>
      simp only [hpe] at h
      cases hv : Validate x { ps with SData := some sd, ASEntries := ases } vm with
      | none => simp [hv] at h
      | some r =>
        simp only [hv, Option.map_some', Option.some.injEq, Prod.mk.injEq] at h
        obtain ⟨h1, h2⟩ := h
        subst h1
        subst h2
        exact ⟨rfl, rfl, rfl, rfl, rfl, rfl, rfl, hv⟩

/-- C11 as stated fails for `ParseRaw`, which re-derives `ASEntries` without
clearing the caches. `segStale` holds in both caches the hash of its parsed
chain (AS 1) and a raw entry of AS 3. `ParseRaw` succeeds on it and replaces
the parsed chain, the caches are left as they were, and the next `ID()` and
`FullId()` return the value cached for the earlier chain, which is not the hash
over the current chain. -/
theorem ParseRaw_stale_cache_counterexample :
    ParseRaw sampleExt segStale ValidateBeacon = some (some segStaleParsed, none) ∧
    calculateHash sampleExt segStale true = .ok [1, 0, 5] ∧
    segStale.id = some [1, 0, 5] ∧
    segStaleParsed.ASEntries ≠ segStale.ASEntries ∧
    segStaleParsed.id = some [1, 0, 5] ∧
    segStaleParsed.fullId = some [1, 0, 5] ∧
    (ID sampleExt segStaleParsed).1 = .ok [1, 0, 5] ∧
    (FullId sampleExt segStaleParsed).1 = .ok [1, 0, 5] ∧
    calculateHash sampleExt segStaleParsed true = .ok [3, 0, 5] ∧
    calculateHash sampleExt segStaleParsed false = .ok [3, 0, 5] := by
  refine ⟨by rfl, by rfl, by rfl, by decide, by rfl, by rfl, by rfl, by rfl, by rfl, by rfl⟩

/-- C11, amended. A successful `AddASEntry` clears both caches, so the next
`ID()` and `FullId()` return `calculateHash(true)` and `calculateHash(false)`
over the current chain. `ParseRaw` leaves the caches as they are; called on a
segment whose caches are empty, as `newSegFromRaw` does, it returns a segment
whose caches are empty, so there too the next `ID()` and `FullId()` return the
hash over the re-derived chain. -/
theorem caches_cleared_on_append (x : Ext) :
    (∀ (ps ps1 : PathSegment) (ase : ASEntry) (signer : Signer),
      AddASEntry x ps ase signer = some (ps1, none) →
        ps1.id = none ∧ ps1.fullId = none ∧
        (ID x ps1).1 = calculateHash x ps1 true ∧
        (FullId x ps1).1 = calculateHash x ps1 false) ∧
    (∀ (ps ps1 : PathSegment) (vm : ValidationMethod) (err : Option Error),
      ps.id = none → ps.fullId = none → ParseRaw x ps vm = some (some ps1, err) →
        ps1.id = none ∧ ps1.fullId = none ∧
        (ID x ps1).1 = calculateHash x ps1 true ∧
        (FullId x ps1).1 = calculateHash x ps1 false) ∧
    (∀ (b : RawBytes) (ps1 : PathSegment) (vm : ValidationMethod) (err : Option Error),
      newSegFromRaw x b vm = some (some ps1, err) →
        ps1.id = none ∧ ps1.fullId = none ∧
        (ID x ps1).1 = calculateHash x ps1 true ∧
        (FullId x ps1).1 = calculateHash x ps1 false) := by
  refine ⟨?_, ?_, ?_⟩
  · intro ps ps1 ase signer h
    obtain ⟨b, sig, -, -, hp, -⟩ := AddASEntry_ok_inv x ps ps1 ase signer h
    have h1 : ps1.id = none := by rw [hp]; rfl
    have h2 : ps1.fullId = none := by rw [hp]; rfl
    exact ⟨h1, h2, ID_of_empty_cache x ps1 h1, FullId_of_empty_cache x ps1 h2⟩
  · intro ps ps1 vm err hid hfull h
    obtain ⟨h1, h2, -⟩ := ParseRaw_keeps_caches x ps ps1 vm err h
    rw [hid] at h1
    rw [hfull] at h2
    exact ⟨h1, h2, ID_of_empty_cache x ps1 h1, FullId_of_empty_cache x ps1 h2⟩
  · intro b ps1 vm err h
    unfold newSegFromRaw at h
    cases hp : x.parseSegment b with
    | error e => simp [hp] at h
    | ok fields =>
      simp only [hp] at h
      obtain ⟨h1, h2, -⟩ := ParseRaw_keeps_caches x _ ps1 vm err h
      simp only at h1 h2
      exact ⟨h1, h2, ID_of_empty_cache x ps1 h1, FullId_of_empty_cache x ps1 h2⟩

/-- Witness for C11 (amended): the append of `aseB` to `seg1`, whose id cache
is filled, and `ParseRaw` on the raw segment `segRaw3`. -/
theorem caches_cleared_on_append_witness :
    AddASEntry sampleExt seg1 aseB okSigner = some (seg2, none) ∧ seg1.id = some [1, 0, 5] ∧
    (seg2.id = none ∧ seg2.fullId = none ∧
      (ID sampleExt seg2).1 = calculateHash sampleExt seg2 true ∧
      (FullId sampleExt seg2).1 = calculateHash sampleExt seg2 false) ∧
    segRaw3.id = none ∧ segRaw3.fullId = none ∧
    ParseRaw sampleExt segRaw3 ValidateBeacon = some (some segRaw3Parsed, none) ∧
    (segRaw3Parsed.id = none ∧ segRaw3Parsed.fullId = none ∧
      (ID sampleExt segRaw3Parsed).1 = calculateHash sampleExt segRaw3Parsed true ∧
      (FullId sampleExt segRaw3Parsed).1 = calculateHash sampleExt segRaw3Parsed false) :=
  ⟨by rfl, by rfl,
   (caches_cleared_on_append sampleExt).1 seg1 seg2 aseB okSigner (by rfl),
   by rfl, by rfl, by rfl,
   (caches_cleared_on_append sampleExt).2.1 segRaw3 segRaw3Parsed ValidateBeacon none
     (by rfl) (by rfl) (by rfl)⟩

/-- C12. `ID()` and `FullId()` are stable: when `ID()` succeeds with `id`,
calling it again on the segment it left behind returns the same `id` and leaves
that segment (entries and both caches) unchanged; the same holds for
`FullId()`. A call also never touches anything but its own cache. -/
theorem ID_FullId_stable (x : Ext) (ps : PathSegment) :
    (∀ id : RawBytes, (ID x ps).1 = .ok id →
      ID x (ID x ps).2 = (.ok id, (ID x ps).2)) ∧
    (∀ fullId : RawBytes, (FullId x ps).1 = .ok fullId →
      FullId x (FullId x ps).2 = (.ok fullId, (FullId x ps).2)) ∧
    (ID x ps).2 = { ps with id := (ID x ps).2.id } ∧
    (FullId x ps).2 = { ps with fullId := (FullId x ps).2.fullId } := by
  refine ⟨?_, ?_, ?_, ?_⟩
  · intro id h
    unfold ID at h ⊢
    cases hc : ps.id with
    | some c =>
      simp only [hc] at h ⊢
      cases h
      rfl
    | none =>
      simp only [hc] at h ⊢
      cases hh : calculateHash x ps true with
      | error e => simp [hh] at h
      | ok v =>
        simp only [hh, Except.ok.injEq] at h ⊢
        subst h
        rfl
  · intro fullId h
    unfold FullId at h ⊢
    cases hc : ps.fullId with
    | some c =>
      simp only [hc] at h ⊢
      cases h
      rfl
    | none =>
      simp only [hc] at h ⊢
      cases hh : calculateHash x ps false with
      | error e => simp [hh] at h
      | ok v =>
        simp only [hh, Except.ok.injEq] at h ⊢
        subst h
        rfl
  · unfold ID
    cases hc : ps.id with
    | some c =>
      rfl
    | none =>
      cases hh : calculateHash x ps true with
      | error e =>
        rfl
      | ok v => rfl
  · unfold FullId
    cases hc : ps.fullId with
    | some c =>
      rfl
    | none =>
      cases hh : calculateHash x ps false with
      | error e =>
        rfl
      | ok v => rfl

/-- Witness for C12: the two-entry segment `seg2`, whose caches are empty. -/
theorem ID_FullId_stable_witness :
    (ID sampleExt seg2).1 = .ok [1, 0, 5, 2, 6, 0] ∧
    ID sampleExt (ID sampleExt seg2).2 = (.ok [1, 0, 5, 2, 6, 0], (ID sampleExt seg2).2) ∧
    (FullId sampleExt seg2).1 = .ok [1, 0, 5, 2, 6, 0] ∧
    FullId sampleExt (FullId sampleExt seg2).2
      = (.ok [1, 0, 5, 2, 6, 0], (FullId sampleExt seg2).2) :=
  ⟨by rfl, (ID_FullId_stable sampleExt seg2).1 [1, 0, 5, 2, 6, 0] (by rfl),
   by rfl, (ID_FullId_stable sampleExt seg2).2.1 [1, 0, 5, 2, 6, 0] (by rfl)⟩

/-- C20. With empty caches `ID()` and `FullId()` depend only on the parsed
`ASEntries`: two segments with the same `ASEntries` give the same `ID()` and
the same `FullId()`, whatever their `RawSData`, `SData`, raw blobs and
signature metadata are; the result is `calculateHash` over the parsed
entries. -/
theorem ids_depend_on_ASEntries (x : Ext) (ps ps1 : PathSegment)
    (hentries : ps.ASEntries = ps1.ASEntries)
    (hid : ps.id = none) (hid1 : ps1.id = none)
    (hfull : ps.fullId = none) (hfull1 : ps1.fullId = none) :
    (ID x ps).1 = (ID x ps1).1 ∧ (FullId x ps).1 = (FullId x ps1).1 ∧
    (ID x ps).1 = (hashEntries x true [] ps.ASEntries).map x.sha256 ∧
    (FullId x ps).1 = (hashEntries x false [] ps.ASEntries).map x.sha256 := by
  have hcalc : ∀ (p : PathSegment) (b : Bool),
      calculateHash x p b = (hashEntries x b [] p.ASEntries).map x.sha256 := by
    intro p b
    unfold calculateHash
    cases hashEntries x b [] p.ASEntries <;> rfl
  rw [ID_of_empty_cache x ps hid, ID_of_empty_cache x ps1 hid1,
    FullId_of_empty_cache x ps hfull, FullId_of_empty_cache x ps1 hfull1]
  simp only [hcalc, hentries, and_self]

/-- Witness for C20: `seg2` and `seg2Reframed` have the same parsed entries
and different `RawSData` and raw blobs. -/
theorem ids_depend_on_ASEntries_witness :
    seg2.ASEntries = seg2Reframed.ASEntries ∧
    seg2.RawSData ≠ seg2Reframed.RawSData ∧
    seg2.RawASEntries ≠ seg2Reframed.RawASEntries ∧
    ((ID sampleExt seg2).1 = (ID sampleExt seg2Reframed).1 ∧
      (FullId sampleExt seg2).1 = (FullId sampleExt seg2Reframed).1 ∧
      (ID sampleExt seg2).1 = (hashEntries sampleExt true [] seg2.ASEntries).map sampleExt.sha256 ∧
      (FullId sampleExt seg2).1
        = (hashEntries sampleExt false [] seg2.ASEntries).map sampleExt.sha256) :=
  ⟨by rfl, by decide, by decide,
   ids_depend_on_ASEntries sampleExt seg2 seg2Reframed (by rfl) (by rfl) (by rfl) (by rfl)
     (by rfl)⟩

/-! ## Index check of `VerifyASEntry` -/

/-- C16. `VerifyASEntry(idx)` checks the index first: `validateIdx` reports an
error exactly when `idx < 0` or `idx > len(RawASEntries) - 1`; then the result
is the index error, whatever the verifier is (it is not consulted), and this is
the case for every `idx` on an empty chain. Otherwise `sigPack(idx)` reads only
indices in range (no panic) and the result is exactly the verifier's answer on
`sigPack(idx)` and `RawASEntries[idx].Sign`. -/
theorem VerifyASEntry_index_check (x : Ext) (ps : PathSegment) (idx : Int) :
    ((validateIdx ps idx).isSome = true ↔
      (idx < 0 ∨ idx > (ps.RawASEntries.length : Int) - 1)) ∧
    ((idx < 0 ∨ idx > (ps.RawASEntries.length : Int) - 1) →
      ∀ verifier : Verifier,
        VerifyASEntry x ps verifier idx
          = some (some (Error.invalidIndex 0 ((ps.RawASEntries.length : Int) - 1) idx))) ∧
    (ps.RawASEntries.length = 0 →
      ∀ verifier : Verifier,
        VerifyASEntry x ps verifier idx
          = some (some (Error.invalidIndex 0 ((ps.RawASEntries.length : Int) - 1) idx))) ∧
    (¬ (idx < 0 ∨ idx > (ps.RawASEntries.length : Int) - 1) →
      ∃ data sb,
        sigPack x ps idx = some data ∧ ps.RawASEntries[idx.toNat]? = some sb ∧
        data = ps.RawSData
          ++ ((ps.RawASEntries.take idx.toNat).map x.packSignedBlob).flatten ++ sb.Blob ∧
        ∀ verifier : Verifier, VerifyASEntry x ps verifier idx = some (verifier data sb.Sign)) := by
  have hout : (idx < 0 ∨ idx > (ps.RawASEntries.length : Int) - 1) →
      ∀ verifier : Verifier,
        VerifyASEntry x ps verifier idx
          = some (some (Error.invalidIndex 0 ((ps.RawASEntries.length : Int) - 1) idx)) := by
    intro h verifier
    unfold VerifyASEntry validateIdx MaxAEIdx
    rw [if_pos h]
  refine ⟨?_, hout, ?_, ?_⟩
  · unfold validateIdx MaxAEIdx
    by_cases h : idx < 0 ∨ idx > (ps.RawASEntries.length : Int) - 1
    · simp [h]
    · simp [h]
  · intro hempty
    apply hout
    rw [hempty]
    omega
  · intro h
    have h0 : 0 ≤ idx := by omega
    have hlt : idx.toNat < ps.RawASEntries.length := by omega
    have hcast : ((idx.toNat : Nat) : Int) = idx := Int.toNat_of_nonneg h0
    have hget := List.getElem?_eq_getElem hlt
    have hpack := sigPack_eq x ps idx.toNat _ hget
    rw [hcast] at hpack
    refine ⟨_, _, hpack, hget, rfl, ?_⟩
    intro verifier
    unfold VerifyASEntry
    have hv : validateIdx ps idx = none := by
      unfold validateIdx MaxAEIdx
      rw [if_neg h]
    rw [hv, hpack]
    simp only [Option.bind_eq_bind, Option.some_bind, hget, Option.pure_def]
    rw [if_neg (by omega)]

/-- Witness for C16: index 2 is out of range on the two-entry segment `seg2`,
index 1 is in range. -/
theorem VerifyASEntry_index_check_witness :
    ((2 : Int) < 0 ∨ (2 : Int) > (seg2.RawASEntries.length : Int) - 1) ∧
    (∀ verifier : Verifier,
      VerifyASEntry sampleExt seg2 verifier 2
        = some (some (Error.invalidIndex 0 ((seg2.RawASEntries.length : Int) - 1) 2))) ∧
    ¬ ((1 : Int) < 0 ∨ (1 : Int) > (seg2.RawASEntries.length : Int) - 1) ∧
    (∃ data sb,
      sigPack sampleExt seg2 1 = some data ∧ seg2.RawASEntries[(1 : Int).toNat]? = some sb ∧
      data = seg2.RawSData
        ++ ((seg2.RawASEntries.take (1 : Int).toNat).map sampleExt.packSignedBlob).flatten
        ++ sb.Blob ∧
      ∀ verifier : Verifier,
        VerifyASEntry sampleExt seg2 verifier 1 = some (verifier data sb.Sign)) :=
  ⟨by decide, (VerifyASEntry_index_check sampleExt seg2 2).2.1 (by decide),
   by decide, (VerifyASEntry_index_check sampleExt seg2 1).2.2.2 (by decide)⟩

/-! ## Expiry -/

/-- The inner loop of `expiry` for a comparison that replaces the running
value exactly when the new TTL is not below it in the order `le`: on parsable
hop fields it returns a value that is above the start value and above every
TTL seen, and that is the start value or one of the TTLs. -/
theorem expiryHops_spec (x : Ext) (cmp : Int → Int → Bool) (le : Int → Int → Prop)
    (hrefl : ∀ a, le a a) (htrans : ∀ a b c, le a b → le b c → le a c)
    (htot : ∀ a b, le a b ∨ le b a) (hcmp : ∀ h t, cmp h t = true ↔ ¬ le h t)
    (hes : List HopEntry) (ttl : Int)
    (hp : ∀ he ∈ hes, (x.hopField he).isOk = true) :
    ∃ r, expiryHops x cmp ttl hes = some r ∧ le ttl r ∧
      (∀ t ∈ hes.filterMap (hopTtl x), le t r) ∧
      (r = ttl ∨ r ∈ hes.filterMap (hopTtl x)) := by
  induction hes generalizing ttl with
  | nil => exact ⟨ttl, rfl, hrefl ttl, by simp, Or.inl rfl⟩
  | cons he rest ih =>
    have hhe := hp he (List.mem_cons_self _ _)
    cases hf : x.hopField he with
    | error e => simp [hf, Except.isOk, Except.toBool] at hhe
    | ok f =>
      have httl : hopTtl x he = some (x.toDuration f.ExpTime) := by
        unfold hopTtl
        rw [hf]
      obtain ⟨r, hr, hle, hall, hmem⟩ :=
        ih (if cmp (x.toDuration f.ExpTime) ttl then x.toDuration f.ExpTime else ttl)
          (fun h2 hm => hp h2 (List.mem_cons_of_mem _ hm))
      have hstep : le ttl (if cmp (x.toDuration f.ExpTime) ttl then x.toDuration f.ExpTime
            else ttl) ∧
          le (x.toDuration f.ExpTime) (if cmp (x.toDuration f.ExpTime) ttl
            then x.toDuration f.ExpTime else ttl) := by
        by_cases hc : cmp (x.toDuration f.ExpTime) ttl = true
        · rw [if_pos hc]
          have := (hcmp _ _).mp hc
          rcases htot (x.toDuration f.ExpTime) ttl with h1 | h1
          · exact absurd h1 this
          · exact ⟨h1, hrefl _⟩
        · rw [if_neg hc]
          have : le (x.toDuration f.ExpTime) ttl := by
            by_contra hn
            exact hc ((hcmp _ _).mpr hn)
          exact ⟨hrefl _, this⟩
      refine ⟨r, ?_, htrans _ _ _ hstep.1 hle, ?_, ?_⟩
      · simp only [expiryHops, hf]
        exact hr
      · intro t ht
        simp only [List.filterMap_cons, httl, List.mem_cons] at ht
        rcases ht with rfl | ht
        · exact htrans _ _ _ hstep.2 hle
        · exact hall t ht
      · simp only [List.filterMap_cons, httl, List.mem_cons]
        rcases hmem with h1 | h1
        · by_cases hc : cmp (x.toDuration f.ExpTime) ttl = true
          · rw [if_pos hc] at h1
            exact Or.inr (Or.inl h1)
          · rw [if_neg hc] at h1
            exact Or.inl h1
        · exact Or.inr (Or.inr h1)

/-- The outer loop of `expiry`, under the conditions of `expiryHops_spec`. -/
theorem expiryEntries_spec (x : Ext) (cmp : Int → Int → Bool) (le : Int → Int → Prop)
    (hrefl : ∀ a, le a a) (htrans : ∀ a b c, le a b → le b c → le a c)
    (htot : ∀ a b, le a b ∨ le b a) (hcmp : ∀ h t, cmp h t = true ↔ ¬ le h t)
    (ases : List ASEntry) (ttl : Int)
    (hp : ∀ ase ∈ ases, ∀ he ∈ ase.HopEntries, (x.hopField he).isOk = true) :
    ∃ r, expiryEntries x cmp ttl ases = some r ∧ le ttl r ∧
      (∀ t ∈ (hopsOf ases).filterMap (hopTtl x), le t r) ∧
      (r = ttl ∨ r ∈ (hopsOf ases).filterMap (hopTtl x)) := by
  induction ases generalizing ttl with
  | nil => exact ⟨ttl, rfl, hrefl ttl, by simp [hopsOf], Or.inl rfl⟩
  | cons ase rest ih =>
    obtain ⟨r1, hr1, hle1, hall1, hmem1⟩ :=
      expiryHops_spec x cmp le hrefl htrans htot hcmp ase.HopEntries ttl
        (hp ase (List.mem_cons_self _ _))
    obtain ⟨r, hr, hle, hall, hmem⟩ :=
      ih r1 (fun a ha => hp a (List.mem_cons_of_mem _ ha))
    have hsplit : (hopsOf (ase :: rest)).filterMap (hopTtl x)
        = ase.HopEntries.filterMap (hopTtl x) ++ (hopsOf rest).filterMap (hopTtl x) := by
      simp [hopsOf, List.filterMap_append]
    refine ⟨r, ?_, htrans _ _ _ hle1 hle, ?_, ?_⟩
    · simp only [expiryEntries, hr1]
      exact hr
    · intro t ht
      rw [hsplit, List.mem_append] at ht
      rcases ht with ht | ht
      · exact htrans _ _ _ (hall1 t ht) hle
      · exact hall t ht
    · rw [hsplit]
      rcases hmem with h1 | h1
      · rcases hmem1 with h2 | h2
        · exact Or.inl (h1.trans h2)
        · exact Or.inr (List.mem_append.mpr (Or.inl (h1 ▸ h2)))
      · exact Or.inr (List.mem_append.mpr (Or.inr h1))

/-- On a segment with parsable info field and hop fields `MaxExpiry` returns
the timestamp plus a value that is at least 0 and at least every hop TTL, and
that is 0 or one of the hop TTLs. -/
theorem MaxExpiry_spec (x : Ext) (ps : PathSegment) (info : InfoField)
    (hinfo : InfoF x ps = .ok info) (hhops : hopsParsable x ps) :
    ∃ m, MaxExpiry x ps = some (x.timestamp info + m) ∧ 0 ≤ m ∧
      (∀ t ∈ hopTtls x ps, t ≤ m) ∧ (m = 0 ∨ m ∈ hopTtls x ps) := by
  obtain ⟨r, hr, hle, hall, hmem⟩ :=
    expiryEntries_spec x (fun hfTtl ttl => decide (hfTtl > ttl)) (fun a b => a ≤ b)
      (fun a => le_refl a) (fun a b c => le_trans) (fun a b => le_total a b)
      (fun h t => by simp) ps.ASEntries 0 hhops
  refine ⟨r, ?_, hle, hall, hmem⟩
  unfold MaxExpiry expiry
  rw [hinfo]
  simp only [hr]

/-- On a segment with parsable info field and hop fields `MinExpiry` returns
the timestamp plus a value that is at most the seed `MaxTTL * Second` and at
most every hop TTL, and that is the seed or one of the hop TTLs. -/
theorem MinExpiry_spec (x : Ext) (ps : PathSegment) (info : InfoField)
    (hinfo : InfoF x ps = .ok info) (hhops : hopsParsable x ps) :
    ∃ m, MinExpiry x ps = some (x.timestamp info + m) ∧ m ≤ x.MaxTTL * Second ∧
      (∀ t ∈ hopTtls x ps, m ≤ t) ∧ (m = x.MaxTTL * Second ∨ m ∈ hopTtls x ps) := by
  obtain ⟨r, hr, hle, hall, hmem⟩ :=
    expiryEntries_spec x (fun hfTtl ttl => decide (hfTtl < ttl)) (fun a b => b ≤ a)
      (fun a => le_refl a) (fun a b c h1 h2 => le_trans h2 h1) (fun a b => le_total b a)
      (fun h t => by simp) ps.ASEntries (x.MaxTTL * Second) hhops
  refine ⟨r, ?_, hle, hall, hmem⟩
  unfold MinExpiry expiry
  rw [hinfo]
  simp only [hr]

/-- A segment with parsable hop fields and at least one hop entry has at least
one hop TTL. -/
theorem hopTtls_ne_nil (x : Ext) (ps : PathSegment) (hhops : hopsParsable x ps)
    (hne : hopsOf ps.ASEntries ≠ []) : ∃ t, t ∈ hopTtls x ps := by
  obtain ⟨he, hhe⟩ := List.exists_mem_of_ne_nil _ hne
  have hmem := hhe
  simp only [hopsOf, List.mem_flatten, List.mem_map] at hmem
  obtain ⟨l, ⟨ase, hase, rfl⟩, hin⟩ := hmem
  have hok := hhops ase hase he hin
  cases hf : x.hopField he with
  | error e => simp [hf, Except.isOk, Except.toBool] at hok
  | ok f =>
    refine ⟨x.toDuration f.ExpTime, ?_⟩
    unfold hopTtls
    rw [List.mem_filterMap]
    exact ⟨he, hhe, by simp [hopTtl, hf]⟩

/-- C13. For a segment whose info field and hop fields all parse and which has
at least one hop entry, `MinExpiry` and `MaxExpiry` return (no panic) and
`MinExpiry() <= MaxExpiry()`. -/
theorem MinExpiry_le_MaxExpiry (x : Ext) (ps : PathSegment) (info : InfoField)
    (hinfo : InfoF x ps = .ok info) (hhops : hopsParsable x ps)
    (hne : hopsOf ps.ASEntries ≠ []) :
    ∃ tmin tmax, MinExpiry x ps = some tmin ∧ MaxExpiry x ps = some tmax ∧ tmin ≤ tmax := by
  obtain ⟨mx, hmx, -, hallx, -⟩ := MaxExpiry_spec x ps info hinfo hhops
  obtain ⟨mn, hmn, -, halln, -⟩ := MinExpiry_spec x ps info hinfo hhops
  obtain ⟨t, ht⟩ := hopTtls_ne_nil x ps hhops hne
  refine ⟨_, _, hmn, hmx, ?_⟩
  have h1 := halln t ht
  have h2 := hallx t ht
  omega

/-- Witness for C13: the two-entry segment `seg2`. -/
theorem MinExpiry_le_MaxExpiry_witness :
    InfoF sampleExt seg2 = .ok ⟨10, 0⟩ ∧ hopsParsable sampleExt seg2 ∧
    hopsOf seg2.ASEntries ≠ [] ∧
    ∃ tmin tmax, MinExpiry sampleExt seg2 = some tmin ∧ MaxExpiry sampleExt seg2 = some tmax ∧
      tmin ≤ tmax :=
  ⟨by rfl, by decide, by decide,
   MinExpiry_le_MaxExpiry sampleExt seg2 ⟨10, 0⟩ (by rfl) (by decide) (by decide)⟩

/-- C14. For a segment whose info field and hop fields all parse and which has
at least one hop entry, the hop TTLs being durations that are not negative,
`MaxExpiry()` is the creation timestamp plus the maximum of the relative TTLs
of all hop fields (primary and peering, of every AS entry); so for a chain
with a single hop field of TTL `t` it is the timestamp plus `t`. -/
theorem MaxExpiry_is_max (x : Ext) (ps : PathSegment) (info : InfoField)
    (hinfo : InfoF x ps = .ok info) (hhops : hopsParsable x ps)
    (hne : hopsOf ps.ASEntries ≠ [])
    (hnonneg : ∀ t ∈ hopTtls x ps, 0 ≤ t) :
    ∃ m, MaxExpiry x ps = some (x.timestamp info + m) ∧ m ∈ hopTtls x ps ∧
      (∀ t ∈ hopTtls x ps, t ≤ m) ∧
      (∀ t, hopTtls x ps = [t] → MaxExpiry x ps = some (x.timestamp info + t)) := by
  obtain ⟨m, hm, -, hall, hmem⟩ := MaxExpiry_spec x ps info hinfo hhops
  obtain ⟨t0, ht0⟩ := hopTtls_ne_nil x ps hhops hne
  have hin : m ∈ hopTtls x ps := by
    rcases hmem with h0 | h1
    · have h1 := hall t0 ht0
      have h2 := hnonneg t0 ht0
      have : t0 = m := by omega
      rw [← this]
      exact ht0
    · exact h1
  refine ⟨m, hm, hin, hall, ?_⟩
  intro t ht
  rw [ht, List.mem_singleton] at hin
  rw [hm, hin]

/-- Witness for C14: the two-entry segment `seg2`, whose hop TTLs are 101 and
51 units of 337 seconds. -/
theorem MaxExpiry_is_max_witness :
    InfoF sampleExt seg2 = .ok ⟨10, 0⟩ ∧ hopsParsable sampleExt seg2 ∧
    hopsOf seg2.ASEntries ≠ [] ∧
    (∀ t ∈ hopTtls sampleExt seg2, 0 ≤ t) ∧
    hopTtls sampleExt seg2 = [101 * 337 * 1000000000, 51 * 337 * 1000000000] ∧
    MaxExpiry sampleExt seg2 = some (10 * 1000000000 + 101 * 337 * 1000000000) ∧
    ∃ m, MaxExpiry sampleExt seg2 = some (sampleExt.timestamp ⟨10, 0⟩ + m) ∧
      m ∈ hopTtls sampleExt seg2 ∧
      (∀ t ∈ hopTtls sampleExt seg2, t ≤ m) ∧
      (∀ t, hopTtls sampleExt seg2 = [t] →
        MaxExpiry sampleExt seg2 = some (sampleExt.timestamp ⟨10, 0⟩ + t)) :=
  ⟨by rfl, by decide, by decide, by decide, by rfl, by rfl,
   MaxExpiry_is_max sampleExt seg2 ⟨10, 0⟩ (by rfl) (by decide) (by decide) (by decide)⟩

/-- C15. For a segment whose info field and hop fields all parse and which has
at least one hop entry, `MaxTTL * Second` being the maximum possible TTL (no
hop TTL exceeds it), `MinExpiry()` is the creation timestamp plus the minimum
of the relative TTLs of all hop fields (primary and peering, of every AS
entry): the result is built from a hop TTL, and from the seed only when the
seed is itself the smallest hop TTL. -/
theorem MinExpiry_is_min (x : Ext) (ps : PathSegment) (info : InfoField)
    (hinfo : InfoF x ps = .ok info) (hhops : hopsParsable x ps)
    (hne : hopsOf ps.ASEntries ≠ [])
    (hbound : ∀ t ∈ hopTtls x ps, t ≤ x.MaxTTL * Second) :
    ∃ m, MinExpiry x ps = some (x.timestamp info + m) ∧ m ∈ hopTtls x ps ∧
      (∀ t ∈ hopTtls x ps, m ≤ t) ∧
      (∀ t, hopTtls x ps = [t] → MinExpiry x ps = some (x.timestamp info + t)) := by
  obtain ⟨m, hm, -, hall, hmem⟩ := MinExpiry_spec x ps info hinfo hhops
  obtain ⟨t0, ht0⟩ := hopTtls_ne_nil x ps hhops hne
  have hin : m ∈ hopTtls x ps := by
    rcases hmem with h0 | h1
    · have h1 := hall t0 ht0
      have h2 := hbound t0 ht0
      have : t0 = m := by omega
      rw [← this]
      exact ht0
    · exact h1
  refine ⟨m, hm, hin, hall, ?_⟩
  intro t ht
  rw [ht, List.mem_singleton] at hin
  rw [hm, hin]

/-- Witness for C15: the two-entry segment `seg2`. -/
theorem MinExpiry_is_min_witness :
    InfoF sampleExt seg2 = .ok ⟨10, 0⟩ ∧ hopsParsable sampleExt seg2 ∧
    hopsOf seg2.ASEntries ≠ [] ∧
    (∀ t ∈ hopTtls sampleExt seg2, t ≤ sampleExt.MaxTTL * Second) ∧
    MinExpiry sampleExt seg2 = some (10 * 1000000000 + 51 * 337 * 1000000000) ∧
    ∃ m, MinExpiry sampleExt seg2 = some (sampleExt.timestamp ⟨10, 0⟩ + m) ∧
      m ∈ hopTtls sampleExt seg2 ∧
      (∀ t ∈ hopTtls sampleExt seg2, m ≤ t) ∧
      (∀ t, hopTtls sampleExt seg2 = [t] →
        MinExpiry sampleExt seg2 = some (sampleExt.timestamp ⟨10, 0⟩ + t)) :=
  ⟨by rfl, by decide, by decide, by decide, by rfl,
   MinExpiry_is_min sampleExt seg2 ⟨10, 0⟩ (by rfl) (by decide) (by decide) (by decide)⟩

/-! ## What a successful validation guarantees -/

/-- A successful `Validate` passed every stage: the `SData` check, the two
count checks, the loop over the entries and `WalkHopEntries`. -/
theorem Validate_ok_inv (x : Ext) (ps : PathSegment) (vm : ValidationMethod)
    (h : Validate x ps vm = some none) :
    x.validateSData ps.SData = none ∧ ps.RawASEntries.length = ps.ASEntries.length ∧
    1 ≤ ps.ASEntries.length ∧
    validateLoop x ps vm (List.range ps.ASEntries.length) = some none ∧
    WalkHopEntries x ps = none := by
  unfold Validate at h
  cases hsd : x.validateSData ps.SData with
  | some err => simp [hsd] at h
  | none =>
    simp only [hsd] at h
    by_cases h0 : ps.RawASEntries.length = 0
    · simp [h0] at h
    · rw [if_neg h0] at h
      by_cases h1 : ps.ASEntries.length ≠ ps.RawASEntries.length
      · simp [h1] at h
      · rw [if_neg h1] at h
        have heq : ps.ASEntries.length = ps.RawASEntries.length := not_not.mp h1
        rcases hl : validateLoop x ps vm (List.range ps.ASEntries.length) with _ | ⟨_ | e⟩
        · simp [hl] at h
        · simp only [hl, Option.some.injEq] at h
          exact ⟨rfl, heq.symm, by omega, rfl, h⟩
        · simp [hl] at h

/-- When `WalkHopEntries` finds no error, every hop field parses. -/
theorem walkEntries_none_inv (x : Ext) (ases : List ASEntry)
    (h : walkEntries x ases = none) :
    ∀ ase ∈ ases, ∀ he ∈ ase.HopEntries, (x.hopField he).isOk = true := by
  have hops : ∀ (ase : ASEntry) (hes : List HopEntry),
      walkHops x ase hes = none → ∀ he ∈ hes, (x.hopField he).isOk = true := by
    intro ase hes
    induction hes with
    | nil => intro _ he hhe; cases hhe
    | cons h0 rest ih =>
      intro hw he hhe
      simp only [walkHops] at hw
      cases hf : x.hopField h0 with
      | error e => simp [hf] at hw
      | ok f =>
        simp only [hf] at hw
        rcases List.mem_cons.mp hhe with rfl | hm
        · rw [hf]
          rfl
        · exact ih hw he hm
  induction ases with
  | nil => intro ase hase; cases hase
  | cons a rest ih =>
    intro ase hase
    simp only [walkEntries] at h
    cases hw : walkHops x a a.HopEntries with
    | some e => simp [hw] at h
    | none =>
      simp only [hw] at h
      rcases List.mem_cons.mp hase with rfl | hm
      · exact hops _ _ hw
      · exact ih h ase hm

/-- On parsable hop fields the loops of `calculateHash` return no error. -/
theorem hashEntries_ok (x : Ext) (hopOnly : Bool) (ases : List ASEntry) (h : RawBytes)
    (hp : ∀ ase ∈ ases, ∀ he ∈ ase.HopEntries, (x.hopField he).isOk = true) :
    ∃ r, hashEntries x hopOnly h ases = .ok r := by
  have hops : ∀ (hes : List HopEntry) (h0 : RawBytes),
      (∀ he ∈ hes, (x.hopField he).isOk = true) → ∃ r, hashHops x hopOnly h0 hes = .ok r := by
    intro hes
    induction hes with
    | nil => intro h0 _; exact ⟨h0, rfl⟩
    | cons he rest ih =>
      intro h0 hh
      have hhe := hh he (List.mem_cons_self _ _)
      cases hf : x.hopField he with
      | error e => simp [hf, Except.isOk, Except.toBool] at hhe
      | ok f =>
        simp only [hashHops, hf]
        cases hopOnly with
        | true => exact ⟨_, rfl⟩
        | false => exact ih _ (fun h2 hm => hh h2 (List.mem_cons_of_mem _ hm))
  induction ases generalizing h with
  | nil => exact ⟨h, rfl⟩
  | cons a rest ih =>
    obtain ⟨r1, hr1⟩ := hops a.HopEntries (h ++ x.orderBytesIA a.RawIA)
      (hp a (List.mem_cons_self _ _))
    simp only [hashEntries, hr1]
    exact ih r1 (fun b hb => hp b (List.mem_cons_of_mem _ hb))

/-- On parsable hop fields `ContainsInterface` does not panic. -/
theorem containsEntries_some (x : Ext) (ia : IA) (ifid : Nat) (ases : List ASEntry)
    (hp : ∀ ase ∈ ases, ∀ he ∈ ase.HopEntries, (x.hopField he).isOk = true) :
    ∃ r, containsEntries x ia ifid ases = some r := by
  have hops : ∀ (ase : ASEntry) (hes : List HopEntry),
      (∀ he ∈ hes, (x.hopField he).isOk = true) →
        ∃ r, containsHops x ase ia ifid hes = some r := by
    intro ase hes
    induction hes with
    | nil => intro _; exact ⟨false, rfl⟩
    | cons he rest ih =>
      intro hh
      have hhe := hh he (List.mem_cons_self _ _)
      cases hf : x.hopField he with
      | error e => simp [hf, Except.isOk, Except.toBool] at hhe
      | ok f =>
        simp only [containsHops, hf]
        by_cases hc : ASEntry.IA x ase = ia ∧ (f.ConsEgress = ifid ∨ f.ConsIngress = ifid)
        · rw [if_pos hc]
          exact ⟨true, rfl⟩
        · rw [if_neg hc]
          exact ih (fun h2 hm => hh h2 (List.mem_cons_of_mem _ hm))
  induction ases with
  | nil => exact ⟨false, rfl⟩
  | cons a rest ih =>
    obtain ⟨r1, hr1⟩ := hops a a.HopEntries (hp a (List.mem_cons_self _ _))
    simp only [containsEntries, hr1]
    cases r1 with
    | true => exact ⟨true, rfl⟩
    | false => exact ih (fun b hb => hp b (List.mem_cons_of_mem _ hb))

/-- C18. On a segment on which `Validate` succeeds, in either mode, every hop
entry of every AS entry has a parsable hop field. Hence, on that segment,
`ContainsInterface` does not panic, `MaxExpiry` and `MinExpiry` do not panic
once the info field parses (so their hop-field panic branch is not taken), and
`calculateHash`, `ID` and `FullId` return no error. -/
theorem validated_hops_parse (x : Ext) (ps : PathSegment) (vm : ValidationMethod)
    (hv : Validate x ps vm = some none) :
    hopsParsable x ps ∧
    (∀ (ia : IA) (ifid : Nat), ∃ r, ContainsInterface x ps ia ifid = some r) ∧
    (∀ info, InfoF x ps = .ok info →
      (∃ t, MaxExpiry x ps = some t) ∧ (∃ t, MinExpiry x ps = some t)) ∧
    (∀ hopOnly : Bool, ∃ h, calculateHash x ps hopOnly = .ok h) ∧
    (∃ id, (ID x ps).1 = .ok id) ∧ (∃ fullId, (FullId x ps).1 = .ok fullId) := by
  obtain ⟨-, -, -, -, hwalk⟩ := Validate_ok_inv x ps vm hv
  have hhops : hopsParsable x ps := walkEntries_none_inv x ps.ASEntries hwalk
  have hcalc : ∀ hopOnly : Bool, ∃ h, calculateHash x ps hopOnly = .ok h := by
    intro hopOnly
    obtain ⟨r, hr⟩ := hashEntries_ok x hopOnly ps.ASEntries [] hhops
    unfold calculateHash
    rw [hr]
    exact ⟨_, rfl⟩
  refine ⟨hhops, ?_, ?_, hcalc, ?_, ?_⟩
  · intro ia ifid
    exact containsEntries_some x ia ifid ps.ASEntries hhops
  · intro info hinfo
    obtain ⟨m, hm, -⟩ := MaxExpiry_spec x ps info hinfo hhops
    obtain ⟨n, hn, -⟩ := MinExpiry_spec x ps info hinfo hhops
    exact ⟨⟨_, hm⟩, ⟨_, hn⟩⟩
  · unfold ID
    cases hc : ps.id with
    | some c => exact ⟨c, rfl⟩
    | none =>
      obtain ⟨h, hh⟩ := hcalc true
      simp only [hh]
      exact ⟨h, rfl⟩
  · unfold FullId
    cases hc : ps.fullId with
    | some c => exact ⟨c, rfl⟩
    | none =>
      obtain ⟨h, hh⟩ := hcalc false
      simp only [hh]
      exact ⟨h, rfl⟩

/-- Witness for C18: the two-entry segment `seg2` in Segment mode. -/
theorem validated_hops_parse_witness :
    Validate sampleExt seg2 ValidateSegment = some none ∧
    (hopsParsable sampleExt seg2 ∧
    (∀ (ia : IA) (ifid : Nat), ∃ r, ContainsInterface sampleExt seg2 ia ifid = some r) ∧
    (∀ info, InfoF sampleExt seg2 = .ok info →
      (∃ t, MaxExpiry sampleExt seg2 = some t) ∧ (∃ t, MinExpiry sampleExt seg2 = some t)) ∧
    (∀ hopOnly : Bool, ∃ h, calculateHash sampleExt seg2 hopOnly = .ok h) ∧
    (∃ id, (ID sampleExt seg2).1 = .ok id) ∧
    (∃ fullId, (FullId sampleExt seg2).1 = .ok fullId)) :=
  ⟨by rfl, validated_hops_parse sampleExt seg2 ValidateSegment (by rfl)⟩

/-! ## Beacon mode against Segment mode -/

/-- The loop of `Validate` is determined by its body at the indices visited,
across validation modes. -/
theorem validateLoop_congr_mode (x : Ext) (ps : PathSegment) (vm1 vm2 : ValidationMethod)
    (l : List Nat) (h : ∀ i ∈ l, validateBody x ps vm1 i = validateBody x ps vm2 i) :
    validateLoop x ps vm1 l = validateLoop x ps vm2 l := by
  induction l with
  | nil => rfl
  | cons i rest ih =>
    simp only [validateLoop, h i (List.mem_cons_self _ _)]
    rw [ih (fun j hj => h j (List.mem_cons_of_mem _ hj))]

/-- Away from the last index the loop body of `Validate` is the same in both
modes. -/
theorem validateBody_mode_eq (x : Ext) (ps : PathSegment) (vm1 vm2 : ValidationMethod)
    (i : Nat) (hi : i + 1 ≠ ps.ASEntries.length) :
    validateBody x ps vm1 i = validateBody x ps vm2 i := by
  have hign : ∀ vm, ignoreNextAt ps vm i = false := by
    intro vm
    cases hc : ignoreNextAt ps vm i with
    | false => rfl
    | true => exact absurd ((ignoreNextAt_iff ps vm i).mp hc).1 hi
  unfold validateBody
  rw [hign vm1, hign vm2]

/-- The per-entry check of section 4.1 accepts with `ignoreNext` whenever it
accepts without. -/
theorem ASEntry_Validate_mono (ase : ASEntry) (p n : IA)
    (h : ase.Validate p n false = none) : ase.Validate p n true = none :=
  (ASEntry_Validate_ignoreNext ase p n).mpr ((ASEntry_Validate_strict ase p n).mp h).1

/-- C19. Beacon validation is weaker than segment validation: given that the
per-entry check accepts with `ignoreNext = true` whenever it accepts with
`ignoreNext = false`, a segment on which `Validate(ValidateSegment)` succeeds
is one on which `Validate(ValidateBeacon)` succeeds. The two modes run the same
loop body at every index but the last, and they return the same result
whenever the loop body at the last index does. -/
theorem beacon_weaker_than_segment (x : Ext) (ps : PathSegment)
    (hmono : ∀ ase p n, x.validateASEntry ase p n false = none →
      x.validateASEntry ase p n true = none) :
    (Validate x ps ValidateSegment = some none → Validate x ps ValidateBeacon = some none) ∧
    (∀ i, i + 1 ≠ ps.ASEntries.length →
      validateBody x ps ValidateBeacon i = validateBody x ps ValidateSegment i) ∧
    (validateBody x ps ValidateBeacon (ps.ASEntries.length - 1)
        = validateBody x ps ValidateSegment (ps.ASEntries.length - 1) →
      Validate x ps ValidateBeacon = Validate x ps ValidateSegment) := by
  refine ⟨?_, fun i hi => validateBody_mode_eq x ps _ _ i hi, ?_⟩
  · intro h
    obtain ⟨hsd, hlen, hpos, hloop, hwalk⟩ := Validate_ok_inv x ps ValidateSegment h
    have hrange : ∀ i ∈ List.range ps.ASEntries.length, i < ps.ASEntries.length :=
      fun i hi => List.mem_range.mp hi
    have hseg := (validateLoop_iff x ps ValidateSegment _ hrange).2.mp hloop
    have hbeacon : validateLoop x ps ValidateBeacon (List.range ps.ASEntries.length)
        = some none := by
      refine (validateLoop_iff x ps ValidateBeacon _ hrange).2.mpr ?_
      intro i hi ase hase
      have hs := hseg i hi ase hase
      have hf : ignoreNextAt ps ValidateSegment i = false := by
        cases hc : ignoreNextAt ps ValidateSegment i with
        | false => rfl
        | true =>
          have := ((ignoreNextAt_iff ps ValidateSegment i).mp hc).2
          cases this
      rw [hf] at hs
      cases hb : ignoreNextAt ps ValidateBeacon i with
      | false => exact hs
      | true => exact hmono _ _ _ hs
    rw [Validate_eq_loop x ps ValidateBeacon hsd hlen hpos, hbeacon, hwalk]
  · intro hlast
    have hloop : validateLoop x ps ValidateBeacon (List.range ps.ASEntries.length)
        = validateLoop x ps ValidateSegment (List.range ps.ASEntries.length) := by
      apply validateLoop_congr_mode
      intro i hi
      have hi2 := List.mem_range.mp hi
      by_cases hl : i + 1 = ps.ASEntries.length
      · have : i = ps.ASEntries.length - 1 := by omega
        rw [this]
        exact hlast
      · exact validateBody_mode_eq x ps _ _ i hl
    unfold Validate
    rw [hloop]

/-- Witness for C19: the two-entry segment `seg2` passes in Segment mode, hence
in Beacon mode; the one-entry segment `seg1` shows that the converse fails. -/
theorem beacon_weaker_than_segment_witness :
    (∀ ase p n, sampleExt.validateASEntry ase p n false = none →
      sampleExt.validateASEntry ase p n true = none) ∧
    Validate sampleExt seg2 ValidateSegment = some none ∧
    Validate sampleExt seg2 ValidateBeacon = some none ∧
    Validate sampleExt seg1 ValidateBeacon = some none ∧
    Validate sampleExt seg1 ValidateSegment ≠ some none :=
  ⟨ASEntry_Validate_mono, by rfl,
   (beacon_weaker_than_segment sampleExt seg2 ASEntry_Validate_mono).1 (by rfl),
   by rfl, by decide⟩

/-! ## Round trip -/

/-- Growing by successful appends keeps `RawSData`, `SData` and empty caches,
and keeps every raw blob the packed form of the parsed entry at its index. -/
theorem growSeg_packed (x : Ext) (ps psN : PathSegment) (steps : List (ASEntry × Signer))
    (h : growSeg x ps steps = some psN)
    (hinv : ps.RawASEntries.map (fun sb => (Except.ok sb.Blob : Except Error RawBytes))
      = ps.ASEntries.map x.packASEntry)
    (hid : ps.id = none) (hfull : ps.fullId = none) :
    psN.RawASEntries.map (fun sb => (Except.ok sb.Blob : Except Error RawBytes))
      = psN.ASEntries.map x.packASEntry ∧
    psN.RawSData = ps.RawSData ∧ psN.SData = ps.SData ∧
    psN.id = none ∧ psN.fullId = none := by
  induction steps generalizing ps with
  | nil =>
    simp only [growSeg, Option.some.injEq] at h
    subst h
    exact ⟨hinv, rfl, rfl, hid, hfull⟩
  | cons step rest ih =>
    simp only [growSeg] at h
    rcases hadd : AddASEntry x ps step.1 step.2 with _ | ⟨p, _ | e⟩
    · simp [hadd] at h
    · rw [hadd] at h
      simp only at h
      obtain ⟨b, sig, hb, -, hp, -⟩ := AddASEntry_ok_inv x ps p step.1 step.2 hadd
      subst hp
      have hinv1 : (appended ps step.1 b sig).RawASEntries.map
            (fun sb => (Except.ok sb.Blob : Except Error RawBytes))
          = (appended ps step.1 b sig).ASEntries.map x.packASEntry := by
        simp only [appended, List.map_append, List.map_cons, List.map_nil, hinv, hb]
      obtain ⟨h1, h2, h3, h4, h5⟩ := ih (appended ps step.1 b sig) h hinv1 rfl rfl
      exact ⟨h1, h2, h3, h4, h5⟩
    · simp [hadd] at h

/-- Parsing raw blobs that are the packed forms of `ases`, with a codec that
inverts `Pack` on these entries, gives back `ases`. -/
theorem parseEntries_of_packed (x : Ext) (raws : List SignedBlobS) (ases : List ASEntry)
    (hinv : raws.map (fun sb => (Except.ok sb.Blob : Except Error RawBytes))
      = ases.map x.packASEntry)
    (hcodec : ∀ ase ∈ ases, ∀ raw, x.packASEntry ase = .ok raw → x.parseASEntry raw = .ok ase) :
    parseEntries x raws = .ok ases := by
  induction raws generalizing ases with
  | nil =>
    cases ases with
    | nil => rfl
    | cons a rest => simp at hinv
  | cons sb rest ih =>
    cases ases with
    | nil => simp at hinv
    | cons a arest =>
      simp only [List.map_cons, List.cons.injEq] at hinv
      obtain ⟨hhead, htail⟩ := hinv
      have hp := hcodec a (List.mem_cons_self _ _) sb.Blob hhead.symm
      have hr := ih arest htail (fun b hb => hcodec b (List.mem_cons_of_mem _ hb))
      simp only [parseEntries, hp, hr]

/-- Rebuilding a grown, validated segment from its packed form gives the
segment back. -/
theorem rebuild_grown (x : Ext) (infoF : InfoField) (ps0 psN : PathSegment)
    (steps : List (ASEntry × Signer)) (vm : ValidationMethod) (b : RawBytes)
    (hnew : NewSeg x infoF = .ok ps0)
    (hgrow : growSeg x ps0 steps = some psN)
    (hvalid : Validate x psN vm = some none)
    (hpack : PathSegment.Pack x psN = .ok b)
    (hcodecSeg : ∀ bytes, x.packSegment psN.RawSData psN.RawASEntries = .ok bytes →
      x.parseSegment bytes = .ok (psN.RawSData, psN.RawASEntries))
    (hcodecSD : ∀ pss raw, psN.SData = some pss → x.packSData pss = .ok raw →
      x.parseSData raw = .ok pss)
    (hcodecASE : ∀ ase ∈ psN.ASEntries, ∀ raw, x.packASEntry ase = .ok raw →
      x.parseASEntry raw = .ok ase) :
    newSegFromRaw x b vm = some (some psN, none) := by
  have h0 : ps0.RawSData = ps0.RawSData ∧ ∃ pss, ps0.SData = some pss ∧
      x.packSData pss = .ok ps0.RawSData ∧ ps0.RawASEntries = [] ∧ ps0.ASEntries = [] ∧
      ps0.id = none ∧ ps0.fullId = none := by
    unfold NewSeg at hnew
    cases hp : x.packSData (x.newSData infoF) with
    | error e => simp [hp] at hnew
    | ok raw =>
      simp only [hp, Except.ok.injEq] at hnew
      subst hnew
      exact ⟨rfl, _, rfl, hp, rfl, rfl, rfl, rfl⟩
  obtain ⟨-, pss, hsd0, hpk0, hraw0, hase0, hid0, hfull0⟩ := h0
  obtain ⟨hinv, hrsd, hsd, hid, hfull⟩ :=
    growSeg_packed x ps0 psN steps hgrow (by rw [hraw0, hase0]; rfl) hid0 hfull0
  have hsdN : psN.SData = some pss := by rw [hsd, hsd0]
  have hparseSD : x.parseSData psN.RawSData = .ok pss := by
    apply hcodecSD pss _ hsdN
    rw [hrsd]
    exact hpk0
  have hparseE := parseEntries_of_packed x psN.RawASEntries psN.ASEntries hinv hcodecASE
  have hseg := hcodecSeg b hpack
  have hrebuilt :
      (⟨psN.RawSData, some pss, psN.RawASEntries, psN.ASEntries, none, none⟩ : PathSegment)
        = psN := by
    cases psN
    simp only at hsdN hid hfull
    subst hsdN
    subst hid
    subst hfull
    rfl
  unfold newSegFromRaw
  rw [hseg]
  simp only [ParseRaw, hparseSD, hparseE, hrebuilt, hvalid, Option.map_some']

/-- C17. Round trip, the codec inverting `Pack` on the segment, on its signed
data and on its AS entries: take a segment made by `NewSeg`, grown by
successful `AddASEntry` calls, on which `Validate` succeeds in mode `vm` and
whose `Pack` gives `b`. Rebuilding from `b` with validation mode `vm`
(`NewSegFromRaw` in Segment mode, `NewBeaconFromRaw` in Beacon mode) succeeds
and gives a segment with the same parsed AS entries, hence with the same
`ID()` and `FullId()`. -/
theorem pack_rebuild_roundtrip (x : Ext) (infoF : InfoField) (ps0 psN : PathSegment)
    (steps : List (ASEntry × Signer)) (vm : ValidationMethod) (b : RawBytes)
    (hnew : NewSeg x infoF = .ok ps0)
    (hgrow : growSeg x ps0 steps = some psN)
    (hvalid : Validate x psN vm = some none)
    (hpack : PathSegment.Pack x psN = .ok b)
    (hcodecSeg : ∀ bytes, x.packSegment psN.RawSData psN.RawASEntries = .ok bytes →
      x.parseSegment bytes = .ok (psN.RawSData, psN.RawASEntries))
    (hcodecSD : ∀ pss raw, psN.SData = some pss → x.packSData pss = .ok raw →
      x.parseSData raw = .ok pss)
    (hcodecASE : ∀ ase ∈ psN.ASEntries, ∀ raw, x.packASEntry ase = .ok raw →
      x.parseASEntry raw = .ok ase) :
    ∃ ps1 : PathSegment,
      newSegFromRaw x b vm = some (some ps1, none) ∧
      (vm = ValidateSegment → NewSegFromRaw x b = some (some ps1, none)) ∧
      (vm = ValidateBeacon → NewBeaconFromRaw x b = some (some ps1, none)) ∧
      ps1.ASEntries = psN.ASEntries ∧
      (ID x ps1).1 = (ID x psN).1 ∧ (FullId x ps1).1 = (FullId x psN).1 := by
  have h := rebuild_grown x infoF ps0 psN steps vm b hnew hgrow hvalid hpack hcodecSeg
    hcodecSD hcodecASE
  refine ⟨psN, h, ?_, ?_, rfl, rfl, rfl⟩
  · intro hvm
    unfold NewSegFromRaw
    rw [← hvm]
    exact h
  · intro hvm
    unfold NewBeaconFromRaw
    rw [← hvm]
    exact h

/-- Witness for C17: the segment `segC2`, grown from `seg0` by `sampleSteps`
under the lossless sample codec, in Segment mode. -/
theorem pack_rebuild_roundtrip_witness :
    NewSeg codecExt ⟨10, 0⟩ = .ok seg0 ∧
    growSeg codecExt seg0 sampleSteps = some segC2 ∧
    Validate codecExt segC2 ValidateSegment = some none ∧
    PathSegment.Pack codecExt segC2 = .ok segC2Bytes ∧
    codecExt.parseSegment segC2Bytes = .ok (segC2.RawSData, segC2.RawASEntries) ∧
    NewSegFromRaw codecExt segC2Bytes = some (some segC2, none) ∧
    ∃ ps1 : PathSegment,
      newSegFromRaw codecExt segC2Bytes ValidateSegment = some (some ps1, none) ∧
      (ValidateSegment = ValidateSegment →
        NewSegFromRaw codecExt segC2Bytes = some (some ps1, none)) ∧
      (ValidateSegment = ValidateBeacon →
        NewBeaconFromRaw codecExt segC2Bytes = some (some ps1, none)) ∧
      ps1.ASEntries = segC2.ASEntries ∧
      (ID codecExt ps1).1 = (ID codecExt segC2).1 ∧
      (FullId codecExt ps1).1 = (FullId codecExt segC2).1 :=
  have hseg : ∀ bytes, codecExt.packSegment segC2.RawSData segC2.RawASEntries = .ok bytes →
      codecExt.parseSegment bytes = .ok (segC2.RawSData, segC2.RawASEntries) := by
    intro bytes h
    have hb : bytes = segC2Bytes := by
      have h2 : (Except.ok segC2Bytes : Except Error RawBytes) = .ok bytes := h
      injection h2 with h3
      exact h3.symm
    rw [hb]
    rfl
  have hsd : ∀ pss raw, segC2.SData = some pss → codecExt.packSData pss = .ok raw →
      codecExt.parseSData raw = .ok pss := by
    intro pss raw h1 h2
    have hp : pss = ⟨[10, 0]⟩ := by
      have h3 : (some ⟨[10, 0]⟩ : Option PathSegmentSignedData) = some pss := h1
      injection h3 with h4
      exact h4.symm
    subst hp
    have hr : raw = [10, 0] := by
      have h3 : (Except.ok [10, 0] : Except Error RawBytes) = .ok raw := h2
      injection h3 with h4
      exact h4.symm
    subst hr
    rfl
  have hase : ∀ ase ∈ segC2.ASEntries, ∀ raw, codecExt.packASEntry ase = .ok raw →
      codecExt.parseASEntry raw = .ok ase := by
    intro ase hm raw h
    have hm2 : ase ∈ [aseA, aseB] := hm
    simp only [List.mem_cons, List.mem_singleton, List.not_mem_nil, or_false] at hm2
    rcases hm2 with rfl | rfl
    · have h2 : (Except.ok [1, 0, 0, 0, 2, 100, 0, 5] : Except Error RawBytes) = .ok raw := h
      injection h2 with h3
      subst h3
      rfl
    · have h2 : (Except.ok [2, 0, 1, 0, 0, 50, 6, 0] : Except Error RawBytes) = .ok raw := h
      injection h2 with h3
      subst h3
      rfl
  ⟨by rfl, by rfl, by rfl, by rfl, by rfl, by rfl,
   pack_rebuild_roundtrip codecExt ⟨10, 0⟩ seg0 segC2 sampleSteps ValidateSegment segC2Bytes
     (by rfl) (by rfl) (by rfl) (by rfl) hseg hsd hase⟩

end Seg
